import Mathlib

/-
Verification of the columnar table engine implemented in
src/ffi/arrow_stubs.c (projection, sorting, scalar arithmetic, hash
grouping, aggregation, zero-copy buffer export).

The C code is shallowly embedded: each C function that carries engine
logic is translated into an executable Lean definition of the same name.
Arrow GLib library calls that the stubs delegate to (schema field lookup,
building arrays from appended values, taking rows by index) are modelled
by their documented behaviour; such definitions carry a comment saying
what they stand for.

Machine doubles are modelled by the type F64 below: exact rationals for
finite values plus the IEEE-754 special values (signed infinity, NaN).
Finite arithmetic is exact (no rounding or overflow), and the special
values follow the IEEE-754 rules the C expressions rely on; the claims
proved here depend on null propagation, widening and the divide-by-zero
specials, not on rounding.
-/

namespace ArrowStubs

/-- Arrow element types distinguished by the stubs
(type_tag 0..4 in caml_arrow_table_get_schema). -/
inductive AType where
  | int64
  | float64
  | boolean
  | string
  | nullT
deriving DecidableEq, Repr

/-- Model of a C double: exact rational finite values plus the IEEE-754
special values.  `inf true` is negative infinity. -/
inductive F64 where
  | finite (q : ℚ)
  | inf (neg : Bool)
  | nan
deriving DecidableEq, Repr

/-- A scalar cell value of one of the four concrete Arrow kinds. -/
inductive Val where
  | i (n : Int)
  | f (x : F64)
  | b (v : Bool)
  | s (v : String)
deriving DecidableEq, Repr

/-- One physical Arrow array (one chunk): its value data type and its
cells, each independently nullable. -/
structure AArray where
  ty : AType
  cells : List (Option Val)
deriving DecidableEq, Repr

/-- A GArrowChunkedArray: a logical column made of physical chunks. -/
structure Column where
  chunks : List AArray
deriving DecidableEq, Repr

/-- A GArrowTable: schema (name, type per column), columns, row count. -/
structure Table where
  schema : List (String × AType)
  cols : List Column
  nrows : Nat
deriving DecidableEq, Repr

/-- IEEE-754 addition on the F64 model. -/
def F64.add : F64 → F64 → F64
  | .nan, _ => .nan
  | _, .nan => .nan
  | .finite a, .finite b => .finite (a + b)
  | .finite _, .inf s => .inf s
  | .inf s, .finite _ => .inf s
  | .inf s, .inf t => if s = t then .inf s else .nan

/-- IEEE-754 multiplication on the F64 model. -/
def F64.mul : F64 → F64 → F64
  | .nan, _ => .nan
  | _, .nan => .nan
  | .finite a, .finite b => .finite (a * b)
  | .finite a, .inf s => if a = 0 then .nan else .inf (xor (decide (a < 0)) s)
  | .inf s, .finite b => if b = 0 then .nan else .inf (xor s (decide (b < 0)))
  | .inf s, .inf t => .inf (xor s t)

/-- IEEE-754 subtraction on the F64 model. -/
def F64.sub : F64 → F64 → F64
  | .nan, _ => .nan
  | _, .nan => .nan
  | .finite a, .finite b => .finite (a - b)
  | .finite _, .inf s => .inf (!s)
  | .inf s, .finite _ => .inf s
  | .inf s, .inf t => if s = t then .nan else .inf s

/-- IEEE-754 division on the F64 model.  Division of a nonzero finite
value by zero gives a signed infinity, 0/0 gives NaN (the model has a
single zero, read as +0, so the sign comes from the numerator). -/
def F64.div : F64 → F64 → F64
  | .nan, _ => .nan
  | _, .nan => .nan
  | .finite a, .finite b =>
      if b = 0 then (if a = 0 then .nan else .inf (decide (a < 0)))
      else .finite (a / b)
  | .finite _, .inf _ => .finite 0
  | .inf s, .finite b => .inf (xor s (decide (b < 0)))
  | .inf _, .inf _ => .nan

/-- The four scalar operations (op_code 0=add, 1=multiply, 2=subtract,
3=divide in arrow_scalar_op_impl). -/
inductive ScalarOp where
  | add
  | mul
  | sub
  | div
deriving DecidableEq, Repr

/-- Dispatch of op_code in apply_double_scalar_op. -/
def F64.applyOp : ScalarOp → F64 → F64 → F64
  | .add, a, b => F64.add a b
  | .mul, a, b => F64.mul a b
  | .sub, a, b => F64.sub a b
  | .div, a, b => F64.div a b

/-- The decimal digit character for d < 10. -/
def digitChar (d : Nat) : Char := Char.ofNat (48 + d)

/-- Decimal digits of a natural number, most significant first
(fuel-based structural recursion so the definition evaluates by kernel
reduction; the fuel n+1 always suffices). -/
def natDecDigitsAux : Nat → Nat → List Char
  | 0, _ => []
  | fuel + 1, n =>
    if n < 10 then [digitChar n]
    else natDecDigitsAux fuel (n / 10) ++ [digitChar (n % 10)]

/-- Decimal digits of a natural number, most significant first. -/
def natDecDigits (n : Nat) : List Char := natDecDigitsAux (n + 1) n

/-- Decimal rendering of a natural number. -/
def natToDec (n : Nat) : String := String.mk (natDecDigits n)

/-- Decimal rendering of an integer, as printed by
g_strdup_printf with G_GINT64_FORMAT in cell_value_as_string. -/
def intToDecimal (i : Int) : String :=
  if i < 0 then "-" ++ natToDec i.natAbs else natToDec i.natAbs

/-- Rendering of a finite double.  The C code prints with "%g"; the model
uses a deterministic exact rendering (the claims proved here depend only
on the rendering being a function of the value, and on integer/boolean
renderings, not on the specific float format). -/
def ratRender (q : ℚ) : String :=
  if q.den = 1 then intToDecimal q.num
  else intToDecimal q.num ++ "/" ++ natToDec q.den

/-- Rendering of an F64 value by "%g". -/
def F64.render : F64 → String
  | .finite q => ratRender q
  | .inf false => "inf"
  | .inf true => "-inf"
  | .nan => "nan"

/-- Read a Val as int64, as GARROW_INT64_ARRAY value access does; on a
value of another kind (malformed chunk) the read is unspecified and the
model returns 0. -/
def valAsInt : Val → Int
  | .i n => n
  | _ => 0

/-- Read a Val as a double, as GARROW_DOUBLE_ARRAY value access does. -/
def valAsF64 : Val → F64
  | .f x => x
  | .i n => .finite n
  | _ => .finite 0

/-- Read a Val as a boolean. -/
def valAsBool : Val → Bool
  | .b v => v
  | _ => false

/-- Read a Val as a string. -/
def valAsString : Val → String
  | .s v => v
  | _ => ""

/-- ASCII decimal digit test. -/
def isDigitCh (c : Char) : Bool := 48 ≤ c.toNat && c.toNat ≤ 57

/-- Value of a digit string (empty list gives 0, as strtoll does on no
conversion). -/
def digitsVal (cs : List Char) : Nat :=
  cs.foldl (fun a c => a * 10 + (c.toNat - 48)) 0

/-- Model of g_ascii_strtoll(str, NULL, 10): skip spaces, optional sign,
greedy decimal digits; 0 when no digit follows.  (Int64 overflow clamping
is not modelled; every string parsed by the stubs was produced by the
in-range integer rendering above.) -/
def g_ascii_strtoll (str : String) : Int :=
  let cs := str.toList.dropWhile (fun c => c = ' ')
  match cs with
  | '-' :: rest => - (digitsVal (rest.takeWhile isDigitCh) : Int)
  | '+' :: rest => (digitsVal (rest.takeWhile isDigitCh) : Int)
  | _ => (digitsVal (cs.takeWhile isDigitCh) : Int)

/-- Model of g_ascii_strtod: skip spaces, optional sign, decimal digits
with optional fraction; 0 when no conversion happens.  Exponent and
inf/nan spellings are not modelled (never produced by the stubs for the
claims below). -/
def g_ascii_strtod (str : String) : F64 :=
  let cs := str.toList.dropWhile (fun c => c = ' ')
  let signedTail : Bool × List Char :=
    match cs with
    | '-' :: r => (true, r)
    | '+' :: r => (false, r)
    | r => (false, r)
  let rest := signedTail.2
  let intPart := rest.takeWhile isDigitCh
  let rest2 := rest.dropWhile isDigitCh
  let frac : List Char :=
    match rest2 with
    | '.' :: r => r.takeWhile isDigitCh
    | _ => []
  let mag : ℚ := (digitsVal intPart : ℚ) + (digitsVal frac : ℚ) / ((10 : ℚ) ^ frac.length)
  F64.finite (if signedTail.1 then -mag else mag)

/-- Walk the chunk list translating a logical row index into the chunk
holding it and the cell there, exactly as the loops in
cell_value_as_string and get_numeric_value do (offset < chunk_len test,
otherwise subtract the chunk length).  Returns none when the row index is
beyond the last chunk (the C code then sees a NULL chunk). -/
def chunkCellAt : List AArray → Nat → Option (AType × Option Val)
  | [], _ => none
  | a :: rest, r =>
    if r < a.cells.length then
      some (a.ty, (a.cells.get? r).getD none)
    else chunkCellAt rest (r - a.cells.length)

/-- Fetch column colIdx (garrow_table_get_column_data) and locate row r in
its chunks.  none models both a NULL chunked array and a row index past
the last chunk. -/
def lookupCell (t : Table) (colIdx r : Nat) : Option (AType × Option Val) :=
  match t.cols.get? colIdx with
  | none => none
  | some col => chunkCellAt col.chunks r

/-- Embedding of cell_value_as_string: render one cell as a string.
Null cells render as "NA"; int64 in decimal; float64 by "%g"; booleans as
"true"/"false"; strings verbatim; other types (and unreachable rows) as
the empty string. -/
def cell_value_as_string (t : Table) (colIdx r : Nat) : String :=
  match lookupCell t colIdx r with
  | none => ""
  | some (_, none) => "NA"
  | some (ty, some v) =>
    match ty with
    | .int64 => intToDecimal (valAsInt v)
    | .float64 => F64.render (valAsF64 v)
    | .boolean => if valAsBool v then "true" else "false"
    | .string => valAsString v
    | .nullT => ""

/-- Embedding of get_numeric_value: a cell as a double, none when the
cell is null, unreachable, or of non-numeric type (the C sets *is_null in
those cases). -/
def get_numeric_value (t : Table) (colIdx r : Nat) : Option F64 :=
  match lookupCell t colIdx r with
  | none => none
  | some (_, none) => none
  | some (ty, some v) =>
    match ty with
    | .int64 => some (F64.finite (valAsInt v))
    | .float64 => some (valAsF64 v)
    | _ => none

/-- Model of garrow_schema_get_field_index: index of the first field with
the given name, none when absent (the C returns -1). -/
def garrow_schema_get_field_index (schema : List (String × AType)) (name : String) : Option Nat :=
  schema.findIdx? (fun f => f.1 = name)

/-- The composite-key separator: one Unit Separator byte 0x1F, as
appended by g_string_append_c in caml_arrow_table_group_by. -/
def SEP : String := String.singleton (Char.ofNat 31)

/-- The per-key-column renderings of row r (row_keys in the C loop). -/
def rowKeyStrings (t : Table) (keyIndices : List Nat) (r : Nat) : List String :=
  keyIndices.map (fun k => cell_value_as_string t k r)

/-- The composite key of row r: per-key renderings joined with SEP. -/
def compositeKey (t : Table) (keyIndices : List Nat) (r : Nat) : String :=
  String.intercalate SEP (rowKeyStrings t keyIndices r)

/-- One group built by caml_arrow_table_group_by: its composite key (used
only during construction; the C frees it afterwards), its row indices in
append order, and the per-key-column renderings recorded at the group's
first occurrence. -/
structure GEntry where
  key : String
  rows : List Nat
  keyVals : List String
deriving DecidableEq, Repr

/-- One grouping step: append row r to the group whose composite key is
key, or create a new group at the end (hash-map lookup plus
insertion-order bookkeeping in the C loop; the assoc list models the
GHashTable together with the group_order array). -/
def insertRow (key : String) (kv : List String) (r : Nat) : List GEntry → List GEntry
  | [] => [⟨key, [r], kv⟩]
  | e :: rest =>
    if e.key = key then ⟨e.key, e.rows ++ [r], e.keyVals⟩ :: rest
    else e :: insertRow key kv r rest

/-- The groups after scanning rows 0..n-1 (the main loop of
caml_arrow_table_group_by). -/
def buildEntries (t : Table) (keyIndices : List Nat) (n : Nat) : List GEntry :=
  (List.range n).foldl
    (fun acc r => insertRow (compositeKey t keyIndices r) (rowKeyStrings t keyIndices r) r acc)
    []

/-- Embedding of the GroupedTable struct: retained source table, key
column names, per-group row-index lists and per-group key-value strings
(the composite keys themselves are freed and not stored). -/
structure Grouping where
  table : Table
  keyNames : List String
  groupRows : List (List Nat)
  groupKeyVals : List (List String)
deriving DecidableEq, Repr

/-- Embedding of caml_arrow_table_group_by.  none for an empty key list
or an unresolved key column name. -/
def caml_arrow_table_group_by (t : Table) (keyNames : List String) : Option Grouping :=
  if keyNames.isEmpty then none
  else
    match keyNames.mapM (garrow_schema_get_field_index t.schema) with
    | none => none
    | some keyIndices =>
      let entries := buildEntries t keyIndices t.nrows
      some ⟨t, keyNames, entries.map (fun e => e.rows), entries.map (fun e => e.keyVals)⟩

/-- Rows r1 and r2 were placed in the same group of G. -/
def sameGroup (G : Grouping) (r1 r2 : Nat) : Prop :=
  ∃ rows ∈ G.groupRows, r1 ∈ rows ∧ r2 ∈ rows

instance (G : Grouping) (r1 r2 : Nat) : Decidable (sameGroup G r1 r2) := by
  unfold sameGroup
  infer_instance

/-- First occurrences of a list of keys, in order of first occurrence
(the contents of the group_order array). -/
def firstOccs (l : List String) : List String :=
  l.foldl (fun acc x => if x ∈ acc then acc else acc ++ [x]) []

/-- The canonical description of the group with composite key `key` after
scanning rows 0..n-1: its rows are the matching rows of 0..n-1 in order,
and its key values are the renderings of its first row. -/
def canonEntry (t : Table) (keyIndices : List Nat) (n : Nat) (key : String) : GEntry :=
  let rows := (List.range n).filter (fun r => compositeKey t keyIndices r = key)
  ⟨key, rows, rowKeyStrings t keyIndices (rows.headD 0)⟩

/-- The canonical description of all groups after scanning rows 0..n-1. -/
def canonEntries (t : Table) (keyIndices : List Nat) (n : Nat) : List GEntry :=
  (firstOccs ((List.range n).map (compositeKey t keyIndices))).map (canonEntry t keyIndices n)

/-- Widen a cell of a numeric chunk to a double: a Float64 chunk is read
as double, an Int64 chunk is read as int64 and cast (the (gdouble) cast
in apply_double_scalar_op). -/
def numericCellAsF64 (ty : AType) (v : Val) : F64 :=
  match ty with
  | .float64 => valAsF64 v
  | _ => F64.finite (valAsInt v)

/-- Per-cell body of the loop in apply_double_scalar_op: null cells give
an appended null; non-null cells of a Float64/Int64 chunk give the
operation applied to the widened value; a non-null cell of any other
chunk type aborts (ok = FALSE). -/
def applyCellScalar (ty : AType) (cell : Option Val) (scalar : F64) (op : ScalarOp) :
    Option (Option F64) :=
  match cell with
  | none => some none
  | some v =>
    match ty with
    | .float64 => some (some (F64.applyOp op (numericCellAsF64 ty v) scalar))
    | .int64 => some (some (F64.applyOp op (numericCellAsF64 ty v) scalar))
    | _ => none

/-- One chunk of apply_double_scalar_op; none when the chunk loop aborts
(the partially built chunk is discarded). -/
def applyChunkScalar (a : AArray) (scalar : F64) (op : ScalarOp) :
    Option (List (Option F64)) :=
  a.cells.mapM (fun c => applyCellScalar a.ty c scalar op)

/-- Embedding of apply_double_scalar_op: NULL (none) when any chunk
aborts, and also when the column has no chunks at all (result_chunks
stays NULL). -/
def apply_double_scalar_op (chunks : List AArray) (scalar : F64) (op : ScalarOp) :
    Option (List (List (Option F64))) :=
  match chunks.mapM (fun a => applyChunkScalar a scalar op) with
  | none => none
  | some rs => if rs.isEmpty then none else some rs

/-- Embedding of rebuild_table_with_column: the same table with column
idx replaced; the schema field at idx keeps its name and takes the
replacement column's value data type, which is Float64 because the
replacement chunks come from a double builder. -/
def rebuild_table_with_column (t : Table) (idx : Nat)
    (newChunks : List (List (Option F64))) : Table :=
  { schema := t.schema.set idx ((t.schema.getD idx ("", AType.nullT)).1, AType.float64),
    cols := t.cols.set idx
      ⟨newChunks.map (fun c => AArray.mk AType.float64 (c.map (fun x => x.map Val.f)))⟩,
    nrows := t.nrows }

/-- Embedding of arrow_scalar_op_impl: resolve the column name, apply the
scalar operation, rebuild the table.  none on an unresolved name, a
missing column, or a failed apply. -/
def arrow_scalar_op_impl (t : Table) (name : String) (scalar : F64) (op : ScalarOp) :
    Option Table :=
  match garrow_schema_get_field_index t.schema name with
  | none => none
  | some idx =>
    match t.cols.get? idx with
    | none => none
    | some col =>
      match apply_double_scalar_op col.chunks scalar op with
      | none => none
      | some newChunks => some (rebuild_table_with_column t idx newChunks)

/-- Embedding of caml_arrow_compute_add_scalar. -/
def caml_arrow_compute_add_scalar (t : Table) (name : String) (scalar : F64) : Option Table :=
  arrow_scalar_op_impl t name scalar .add

/-- Embedding of caml_arrow_compute_multiply_scalar. -/
def caml_arrow_compute_multiply_scalar (t : Table) (name : String) (scalar : F64) : Option Table :=
  arrow_scalar_op_impl t name scalar .mul

/-- Embedding of caml_arrow_compute_subtract_scalar. -/
def caml_arrow_compute_subtract_scalar (t : Table) (name : String) (scalar : F64) : Option Table :=
  arrow_scalar_op_impl t name scalar .sub

/-- Embedding of caml_arrow_compute_divide_scalar. -/
def caml_arrow_compute_divide_scalar (t : Table) (name : String) (scalar : F64) : Option Table :=
  arrow_scalar_op_impl t name scalar .div

/-- Embedding of caml_arrow_table_project.  An unresolved name raises the
OCaml Failure exception "Column not found" (caml_failwith), modelled as
the explicit error value; a successful resolution packages the selected
fields and column references in order (garrow_table_new_chunked_arrays is
modelled as plain packaging, so the Option layer for construction failure
always comes back some). -/
def caml_arrow_table_project (t : Table) (names : List String) :
    Except String (Option Table) :=
  match names.mapM (garrow_schema_get_field_index t.schema) with
  | none => Except.error "Column not found"
  | some idxs =>
    Except.ok (some
      ⟨idxs.map (fun i => t.schema.getD i ("", AType.nullT)),
       idxs.map (fun i => t.cols.getD i ⟨[]⟩),
       t.nrows⟩)

/-- Linear sort-rank codomain: a lexicographic nest of (type tier,
sub-tier, numeric value, string value). -/
abbrev VR : Type := Lex (Nat × Lex (Nat × Lex (ℚ × String)))

/-- Pack components into VR. -/
def mkVR (a b : Nat) (q : ℚ) (s : String) : VR := toLex (a, toLex (b, toLex (q, s)))

/-- Rank of a non-null cell value for sorting.  Within one (well-typed)
column only one type tier occurs and the rank restricts to the natural
order of that type; floats order -inf < finite < +inf < NaN (NaN sorts
greatest, as the Arrow compute default does). -/
def vrank : Val → VR
  | .i n => mkVR 0 0 (n : ℚ) ""
  | .f (.inf true) => mkVR 1 0 0 ""
  | .f (.finite q) => mkVR 1 1 q ""
  | .f (.inf false) => mkVR 1 2 0 ""
  | .f .nan => mkVR 1 3 0 ""
  | .b v => mkVR 2 (if v then 1 else 0) 0 ""
  | .s v => mkVR 3 0 0 v

/-- Directional comparison of two cells: null cells are placed at the end
for either direction (the Arrow default null placement), non-null cells
compare by rank in the requested direction. -/
def cellLeDir (asc : Bool) : Option Val → Option Val → Bool
  | none, none => true
  | none, some _ => false
  | some _, none => true
  | some v, some w =>
    if asc then decide (vrank v ≤ vrank w) else decide (vrank w ≤ vrank v)

/-- The cell of column colIdx at logical row i (none when null or out of
range). -/
def keyCell (t : Table) (colIdx i : Nat) : Option Val :=
  match lookupCell t colIdx i with
  | some (_, c) => c
  | none => none

/-- Stable comparison of two row indices for argsorting by a column: key
order in the requested direction, ties broken by original index.  Being
sorted by this relation is exactly "monotone by key and stable". -/
def stableLe (t : Table) (colIdx : Nat) (asc : Bool) (i j : Nat) : Prop :=
  cellLeDir asc (keyCell t colIdx i) (keyCell t colIdx j) = true
    ∧ (cellLeDir asc (keyCell t colIdx j) (keyCell t colIdx i) = true → i ≤ j)

instance stableLeDecidable (t : Table) (colIdx : Nat) (asc : Bool) :
    DecidableRel (stableLe t colIdx asc) := fun i j => by
  unfold stableLe
  infer_instance

/-- Modelled from the spec: garrow_table_sort_indices is an external
Arrow call (the C sort has no in-repo comparison logic); the spec
requires a stable argsort of the row indices by the named column in the
requested direction.  Sorting [0, …, n-1] by the index-tie-breaking total
preorder stableLe is exactly that. -/
def garrow_table_sort_indices (t : Table) (colIdx : Nat) (asc : Bool) : List Nat :=
  List.insertionSort (stableLe t colIdx asc) (List.range t.nrows)

/-- The value data type of a chunked column (its first chunk's type). -/
def colValueTy (col : Column) : AType := (col.chunks.headD ⟨AType.nullT, []⟩).ty

/-- Modelled from the spec: garrow_table_take is an external Arrow call;
it takes every column by the same row-index permutation, keeping the
schema, so all columns stay row-aligned. -/
def garrow_table_take (t : Table) (idxs : List Nat) : Table :=
  ⟨t.schema,
   t.cols.map (fun col => ⟨[⟨colValueTy col, idxs.map (fun i =>
     match chunkCellAt col.chunks i with
     | some (_, c) => c
     | none => none)⟩]⟩),
   idxs.length⟩

/-- Embedding of caml_arrow_table_sort: compute the sort permutation for
the named column, then take every column by it.  none when the sort key
cannot be built (unresolved column name makes the Arrow calls fail). -/
def caml_arrow_table_sort (t : Table) (name : String) (ascending : Bool) : Option Table :=
  match garrow_schema_get_field_index t.schema name with
  | none => none
  | some colIdx => some (garrow_table_take t (garrow_table_sort_indices t colIdx ascending))

/-- One rebuilt key column of build_aggregation_result: an Int64-typed
key parses each stored key string back with g_ascii_strtoll, a
Float64-typed key with g_ascii_strtod, and every other type (the
"default to string" branch, hit by Boolean keys too) stores the strings
verbatim; key cells are appended with append_value and are never null. -/
def keyColumnFor (ty : AType) (vals : List String) : AArray :=
  match ty with
  | .int64 => ⟨AType.int64, vals.map (fun s => some (Val.i (g_ascii_strtoll s)))⟩
  | .float64 => ⟨AType.float64, vals.map (fun s => some (Val.f (g_ascii_strtod s)))⟩
  | _ => ⟨AType.string, vals.map (fun s => some (Val.s s))⟩

/-- Embedding of build_aggregation_result: key columns first (one row per
group in group order, field typed with the original schema type), then
the aggregate column (Float64, null where agg_nulls[g] is set).  none
when a key name no longer resolves against the source schema (the C
would index the schema with -1; this never happens for a Grouping made by
group_by). -/
def build_aggregation_result (gt : Grouping) (aggName : String)
    (aggs : List (F64 × Bool)) : Option Table :=
  match gt.keyNames.mapM (garrow_schema_get_field_index gt.table.schema) with
  | none => none
  | some idxs =>
    some ⟨(gt.keyNames.zip (idxs.map (fun i => (gt.table.schema.getD i ("", AType.nullT)).2)))
        ++ [(aggName, AType.float64)],
      ((List.range gt.keyNames.length).map (fun k =>
        Column.mk [keyColumnFor
          ((idxs.map (fun i => (gt.table.schema.getD i ("", AType.nullT)).2)).getD k AType.nullT)
          ((List.range gt.groupRows.length).map (fun g =>
            (gt.groupKeyVals.getD g []).getD k ""))]))
      ++ [Column.mk [AArray.mk AType.float64
          ((List.range gt.groupRows.length).map (fun g =>
            match aggs.getD g (F64.finite 0, true) with
            | (v, isNull) => if isNull then none else some (Val.f v)))]],
      gt.groupRows.length⟩

/-- Embedding of caml_arrow_group_sum: per group, fold the non-null
numeric values (sum starts at 0.0, the all-null flag starts TRUE and is
cleared by the first non-null value). -/
def caml_arrow_group_sum (gt : Grouping) (name : String) : Option Table :=
  match garrow_schema_get_field_index gt.table.schema name with
  | none => none
  | some colIdx =>
    let aggs := gt.groupRows.map (fun rows =>
      rows.foldl (fun (acc : F64 × Bool) r =>
        match get_numeric_value gt.table colIdx r with
        | none => acc
        | some v => (F64.add acc.1 v, false)) (F64.finite 0, true))
    build_aggregation_result gt name aggs

/-- The per-group loop of caml_arrow_group_mean: sum and count of a
group's non-null numeric values. -/
def meanFold (t : Table) (colIdx : Nat) (rows : List Nat) : F64 × Nat :=
  rows.foldl (fun (acc : F64 × Nat) r =>
    match get_numeric_value t colIdx r with
    | none => acc
    | some v => (F64.add acc.1 v, acc.2 + 1)) (F64.finite 0, 0)

/-- One group's mean aggregate: a positive count divides, a zero count
leaves the 0.0 from calloc and marks the aggregate null. -/
def meanAgg (t : Table) (colIdx : Nat) (rows : List Nat) : F64 × Bool :=
  match meanFold t colIdx rows with
  | (sum, count) =>
    if count > 0 then (F64.div sum (F64.finite (count : ℚ)), false)
    else (F64.finite 0, true)

/-- Embedding of caml_arrow_group_mean. -/
def caml_arrow_group_mean (gt : Grouping) (name : String) : Option Table :=
  match garrow_schema_get_field_index gt.table.schema name with
  | none => none
  | some colIdx =>
    build_aggregation_result gt name (gt.groupRows.map (meanAgg gt.table colIdx))

/-- Embedding of caml_arrow_group_count: group sizes as doubles, never
null, aggregate column named "n". -/
def caml_arrow_group_count (gt : Grouping) : Option Table :=
  build_aggregation_result gt "n"
    (gt.groupRows.map (fun rows => (F64.finite (rows.length : ℚ), false)))

/-- Embedding of caml_arrow_table_get_column_data_by_name: resolve the
name, then return the column's chunk 0 unconditionally — the code
comments "For simplicity, assume single chunk", so a multi-chunk column
yields only its first physical segment, with no absence result. -/
def caml_arrow_table_get_column_data_by_name (t : Table) (name : String) : Option AArray :=
  match garrow_schema_get_field_index t.schema name with
  | none => none
  | some idx =>
    match t.cols.get? idx with
    | none => none
    | some col => col.chunks.get? 0

/-- Byte size of an array's value data buffer (Arrow layout: 8 bytes per
Int64/Float64 slot including null slots, one bit per Boolean slot
rounded up to whole bytes, the UTF-8 character data for strings, and no
buffer for a NullArray). -/
def bufferByteSize (a : AArray) : Nat :=
  match a.ty with
  | .int64 => 8 * a.cells.length
  | .float64 => 8 * a.cells.length
  | .boolean => (a.cells.length + 7) / 8
  | .string => (a.cells.map (fun c =>
      match c with
      | some v => (valAsString v).utf8ByteSize
      | none => 0)).sum
  | .nullT => 0

/-- Embedding of caml_arrow_array_get_buffer_ptr: Some(pointer, length)
for any array whose value data buffer exists — no type or chunk check;
only a NullArray (no value buffer) gives None.  The pointer is memory
layout and is not modelled; the observable length (buffer byte size) is
returned. -/
def caml_arrow_array_get_buffer_ptr (a : AArray) : Option Nat :=
  match a.ty with
  | .nullT => none
  | _ => some (bufferByteSize a)

/-- Embedding of caml_arrow_float64_array_to_bigarray: reinterpret the
value data buffer as size/8 doubles, with no type check.  For a genuine
Float64 array these are the stored values (null slots hold unspecified
bytes, modelled as 0.0); for any other array type the contents are raw
reinterpreted bytes, unspecified in the model (rendered as 0.0), of
length size/8. -/
def caml_arrow_float64_array_to_bigarray (a : AArray) : Option (List F64) :=
  match a.ty with
  | .nullT => none
  | .float64 => some (a.cells.map (fun c =>
      match c with
      | some v => valAsF64 v
      | none => F64.finite 0))
  | _ => some (List.replicate (bufferByteSize a / 8) (F64.finite 0))

/-- A cell value is null or carries a value of the given type. -/
def cellHasType (ty : AType) (c : Option Val) : Bool :=
  match ty, c with
  | _, none => true
  | .int64, some (.i _) => true
  | .float64, some (.f _) => true
  | .boolean, some (.b _) => true
  | .string, some (.s _) => true
  | _, _ => false

/-- The reconstruction shape the spec requires of an aggregation result:
key columns first, one per key name, each a single chunk with one row per
group, typed (declared and cell-wise) with the original schema type of
that key column; then exactly one Float64 aggregate column named
aggName. -/
def ResultShape (gt : Grouping) (aggName : String) (idxs : List Nat) (t' : Table) : Prop :=
  t'.schema = (gt.keyNames.zip (idxs.map (fun i => (gt.table.schema.getD i ("", AType.nullT)).2)))
      ++ [(aggName, AType.float64)]
  ∧ t'.nrows = gt.groupRows.length
  ∧ t'.cols.length = gt.keyNames.length + 1
  ∧ (∀ k, k < gt.keyNames.length →
      ∃ a, t'.cols.get? k = some (Column.mk [a])
        ∧ a.ty = (idxs.map (fun i => (gt.table.schema.getD i ("", AType.nullT)).2)).getD k AType.nullT
        ∧ a.cells.length = gt.groupRows.length
        ∧ ∀ c ∈ a.cells,
            cellHasType ((idxs.map (fun i =>
              (gt.table.schema.getD i ("", AType.nullT)).2)).getD k AType.nullT) c = true)
  ∧ (∃ a, t'.cols.get? gt.keyNames.length = some (Column.mk [a])
      ∧ a.ty = AType.float64
      ∧ a.cells.length = gt.groupRows.length
      ∧ ∀ c ∈ a.cells, cellHasType AType.float64 c = true)

/-- A concrete three-row table: a String key column and an Int64 value
column with one null. -/
def exTableC1 : Table :=
  ⟨[("cat", .string), ("val", .int64)],
   [⟨[⟨.string, [some (.s "A"), some (.s "A"), some (.s "B")]⟩]⟩,
    ⟨[⟨.int64, [some (.i 1), some (.i 2), none]⟩]⟩], 3⟩

/-- The grouping of exTableC1 by its "cat" column. -/
def exGroupC1 : Grouping :=
  ⟨exTableC1, ["cat"], [[0, 1], [2]], [["A"], ["B"]]⟩

/-- A table whose String key column holds the literal string "NA" in row
0 and a null in row 1. -/
def exTableC2 : Table :=
  ⟨[("k", .string)], [⟨[⟨.string, [some (.s "NA"), none]⟩]⟩], 2⟩

/-- A two-row table with one Int64 key column: row 0 null, row 1 = 7. -/
def exTableC2b : Table :=
  ⟨[("k", .int64)], [⟨[⟨.int64, [none, some (.i 7)]⟩]⟩], 2⟩

/-- The single Int64 chunk column used by exTableC3. -/
def exColC3 : Column := ⟨[⟨.int64, [some (.i 3), none]⟩]⟩

/-- A two-row table with one Int64 column holding 3 and a null. -/
def exTableC3 : Table := ⟨[("x", .int64)], [exColC3], 2⟩

/-- A one-row table whose only column is Boolean and entirely null. -/
def exTableC7 : Table :=
  ⟨[("b", .boolean)], [⟨[⟨.boolean, [none]⟩]⟩], 1⟩

/-- A one-row table whose only column is Boolean with a non-null cell. -/
def exTableC7b : Table :=
  ⟨[("b", .boolean)], [⟨[⟨.boolean, [some (.b true)]⟩]⟩], 1⟩

/-- A three-row table with an Int64 sort key (with a tie) and a String
payload column. -/
def exTableC8 : Table :=
  ⟨[("k", .int64), ("v", .string)],
   [⟨[⟨.int64, [some (.i 2), some (.i 1), some (.i 2)]⟩]⟩,
    ⟨[⟨.string, [some (.s "a"), some (.s "b"), some (.s "c")]⟩]⟩], 3⟩

/-- A table whose Float64 column is chunked across two physical
segments. -/
def exTableC9 : Table :=
  ⟨[("x", .float64)],
   [⟨[⟨.float64, [some (.f (.finite 3))]⟩, ⟨.float64, [some (.f (.finite 4))]⟩]⟩], 2⟩

/-- A one-column Boolean-keyed table for the aggregation-reconstruction
counterexample. -/
def exTableC5 : Table :=
  ⟨[("b", .boolean)], [⟨[⟨.boolean, [some (.b true)]⟩]⟩], 1⟩

/-- The grouping of exTableC5 by its Boolean column. -/
def exGroupC5 : Grouping :=
  ⟨exTableC5, ["b"], [[0]], [["true"]]⟩

/-- The grouping of exTableC2b (Int64 key with a null) by its key. -/
def exGroupC10 : Grouping :=
  ⟨exTableC2b, ["k"], [[0], [1]], [["NA"], ["7"]]⟩

/-- The result of summing "val" over the concrete grouping exGroupC1. -/
def exSumC4 : Table := (caml_arrow_group_sum exGroupC1 "val").getD ⟨[], [], 0⟩

/-- The result of counting the concrete grouping exGroupC10. -/
def exCountC10 : Table := (caml_arrow_group_count exGroupC10).getD ⟨[], [], 0⟩

theorem mem_firstOccs_aux (l acc : List String) (x : String) :
    x ∈ l.foldl (fun a y => if y ∈ a then a else a ++ [y]) acc ↔ x ∈ acc ∨ x ∈ l := by
  induction l generalizing acc with
  | nil => simp
  | cons a l ih =>
    simp only [List.foldl_cons]
    rw [ih]
    by_cases h : a ∈ acc
    · simp only [if_pos h, List.mem_cons]
      constructor
      · rintro (hx | hx)
        · exact Or.inl hx
        · exact Or.inr (Or.inr hx)
      · rintro (hx | hx | hx)
        · exact Or.inl hx
        · exact Or.inl (hx ▸ h)
        · exact Or.inr hx
    · simp only [if_neg h, List.mem_append, List.mem_cons, List.mem_singleton]
      tauto

theorem mem_firstOccs (l : List String) (x : String) : x ∈ firstOccs l ↔ x ∈ l := by
  unfold firstOccs
  rw [mem_firstOccs_aux]
  simp

theorem nodup_firstOccs_aux (l acc : List String) (h : acc.Nodup) :
    (l.foldl (fun a y => if y ∈ a then a else a ++ [y]) acc).Nodup := by
  induction l generalizing acc with
  | nil => exact h
  | cons a l ih =>
    simp only [List.foldl_cons]
    by_cases ha : a ∈ acc
    · rw [if_pos ha]; exact ih acc h
    · rw [if_neg ha]
      refine ih _ ?_
      simp only [List.nodup_append, List.nodup_singleton, List.disjoint_singleton]
      exact ⟨h, trivial, ha⟩

theorem nodup_firstOccs (l : List String) : (firstOccs l).Nodup :=
  nodup_firstOccs_aux l [] List.nodup_nil

theorem firstOccs_append_singleton (l : List String) (x : String) :
    firstOccs (l ++ [x]) =
      if x ∈ firstOccs l then firstOccs l else firstOccs l ++ [x] := by
  unfold firstOccs
  rw [List.foldl_append]
  simp

theorem insertRow_of_not_mem (key : String) (kv : List String) (r : Nat)
    (acc : List GEntry) (h : ∀ e ∈ acc, e.key ≠ key) :
    insertRow key kv r acc = acc ++ [⟨key, [r], kv⟩] := by
  induction acc with
  | nil => rfl
  | cons e rest ih =>
    have hne : e.key ≠ key := h e (List.mem_cons_self e rest)
    simp only [insertRow, if_neg hne, List.cons_append, List.cons.injEq, true_and]
    exact ih (fun e' he' => h e' (List.mem_cons_of_mem e he'))

theorem map_modify_of_not_mem (key : String) (r : Nat) (acc : List GEntry)
    (h : ∀ e ∈ acc, e.key ≠ key) :
    acc.map (fun e => if e.key = key then GEntry.mk e.key (e.rows ++ [r]) e.keyVals else e)
      = acc := by
  induction acc with
  | nil => rfl
  | cons e rest ih =>
    simp only [List.map_cons, if_neg (h e (List.mem_cons_self e rest))]
    rw [ih (fun e' he' => h e' (List.mem_cons_of_mem e he'))]

theorem insertRow_of_mem (key : String) (kv : List String) (r : Nat)
    (acc : List GEntry) (hnd : (acc.map (fun e => e.key)).Nodup)
    (h : key ∈ acc.map (fun e => e.key)) :
    insertRow key kv r acc =
      acc.map (fun e => if e.key = key then GEntry.mk e.key (e.rows ++ [r]) e.keyVals else e) := by
  induction acc with
  | nil => simp at h
  | cons e rest ih =>
    simp only [List.map_cons, List.nodup_cons] at hnd
    by_cases he : e.key = key
    · have hrest : ∀ e' ∈ rest, e'.key ≠ key := by
        intro e' he' hk
        exact hnd.1 (he ▸ hk ▸ List.mem_map_of_mem (fun x => x.key) he')
      simp only [insertRow, if_pos he, List.map_cons, if_pos he]
      rw [map_modify_of_not_mem key r rest hrest]
    · simp only [List.mem_map, List.mem_cons] at h
      obtain ⟨e', he', hk⟩ := h
      rcases he' with rfl | he'
      · exact absurd hk he
      · simp only [insertRow, if_neg he, List.map_cons, if_neg he]
        rw [ih hnd.2 (hk ▸ List.mem_map_of_mem (fun x => x.key) he')]

theorem buildEntries_succ (t : Table) (ki : List Nat) (n : Nat) :
    buildEntries t ki (n + 1) =
      insertRow (compositeKey t ki n) (rowKeyStrings t ki n) n (buildEntries t ki n) := by
  unfold buildEntries
  rw [List.range_succ, List.foldl_append]
  rfl

theorem canonEntry_key (t : Table) (ki : List Nat) (n : Nat) (key : String) :
    (canonEntry t ki n key).key = key := rfl

theorem headD_append_of_ne_nil {α : Type} (l1 l2 : List α) (d : α) (h : l1 ≠ []) :
    (l1 ++ l2).headD d = l1.headD d := by
  cases l1 with
  | nil => exact absurd rfl h
  | cons a l => rfl

theorem map_key_canonEntries (t : Table) (ki : List Nat) (n : Nat) (fo : List String) :
    (fo.map (canonEntry t ki n)).map (fun e => e.key) = fo := by
  rw [List.map_map]
  simp [Function.comp_def, canonEntry_key]

theorem canonEntry_stable (t : Table) (ki : List Nat) (n : Nat) (key : String)
    (hne : key ≠ compositeKey t ki n) :
    canonEntry t ki (n + 1) key = canonEntry t ki n key := by
  unfold canonEntry
  have hf : (List.range (n + 1)).filter (fun r => compositeKey t ki r = key)
      = (List.range n).filter (fun r => compositeKey t ki r = key) := by
    rw [List.range_succ, List.filter_append]
    simp [List.filter_cons, hne.symm]
  rw [hf]

theorem canonEntry_grow (t : Table) (ki : List Nat) (n : Nat)
    (hmem : compositeKey t ki n ∈ (List.range n).map (compositeKey t ki)) :
    canonEntry t ki (n + 1) (compositeKey t ki n) =
      GEntry.mk (compositeKey t ki n)
        ((canonEntry t ki n (compositeKey t ki n)).rows ++ [n])
        (canonEntry t ki n (compositeKey t ki n)).keyVals := by
  obtain ⟨r, hr, hck⟩ := List.mem_map.mp hmem
  have hfil : (List.range (n + 1)).filter (fun r => compositeKey t ki r = compositeKey t ki n)
      = (List.range n).filter (fun r => compositeKey t ki r = compositeKey t ki n) ++ [n] := by
    rw [List.range_succ, List.filter_append]
    simp [List.filter_cons]
  have hne : (List.range n).filter (fun r => compositeKey t ki r = compositeKey t ki n) ≠ [] :=
    List.ne_nil_of_mem (List.mem_filter.mpr ⟨hr, by simp [hck]⟩)
  unfold canonEntry
  simp only [hfil]
  rw [headD_append_of_ne_nil _ _ _ hne]

theorem canonEntry_new (t : Table) (ki : List Nat) (n : Nat)
    (hmem : compositeKey t ki n ∉ (List.range n).map (compositeKey t ki)) :
    canonEntry t ki (n + 1) (compositeKey t ki n) =
      GEntry.mk (compositeKey t ki n) [n] (rowKeyStrings t ki n) := by
  have hnil : (List.range n).filter (fun r => compositeKey t ki r = compositeKey t ki n) = [] := by
    rw [List.filter_eq_nil_iff]
    intro r hr hck
    exact hmem (List.mem_map.mpr ⟨r, hr, by simpa using hck⟩)
  have hfil : (List.range (n + 1)).filter (fun r => compositeKey t ki r = compositeKey t ki n)
      = [n] := by
    rw [List.range_succ, List.filter_append, hnil]
    simp [List.filter_cons]
  unfold canonEntry
  simp only [hfil]
  rfl

theorem canonEntries_succ (t : Table) (ki : List Nat) (n : Nat) :
    canonEntries t ki (n + 1) =
      insertRow (compositeKey t ki n) (rowKeyStrings t ki n) n (canonEntries t ki n) := by
  have hrange : (List.range (n + 1)).map (compositeKey t ki)
      = (List.range n).map (compositeKey t ki) ++ [compositeKey t ki n] := by
    rw [List.range_succ, List.map_append]
    rfl
  unfold canonEntries
  rw [hrange, firstOccs_append_singleton]
  by_cases hmem : compositeKey t ki n ∈ firstOccs ((List.range n).map (compositeKey t ki))
  · rw [if_pos hmem]
    rw [insertRow_of_mem _ _ _ _
        (by rw [map_key_canonEntries]; exact nodup_firstOccs _)
        (by rw [map_key_canonEntries]; exact hmem)]
    rw [List.map_map]
    refine List.map_congr_left ?_
    intro key hkey
    simp only [Function.comp_apply, canonEntry_key]
    by_cases hk : key = compositeKey t ki n
    · subst hk
      rw [if_pos rfl]
      exact canonEntry_grow t ki n ((mem_firstOccs _ _).mp hmem)
    · rw [if_neg hk]
      exact canonEntry_stable t ki n key hk
  · rw [if_neg hmem, List.map_append]
    rw [insertRow_of_not_mem _ _ _ _
        (by
          intro e he hk
          rw [List.mem_map] at he
          obtain ⟨key, hkey, rfl⟩ := he
          rw [canonEntry_key] at hk
          exact hmem (hk ▸ hkey))]
    congr 1
    · refine List.map_congr_left ?_
      intro key hkey
      have hk : key ≠ compositeKey t ki n := fun h => hmem (h ▸ hkey)
      exact canonEntry_stable t ki n key hk
    · rw [List.map_singleton]
      rw [canonEntry_new t ki n (fun h => hmem ((mem_firstOccs _ _).mpr h))]

theorem buildEntries_eq_canon (t : Table) (ki : List Nat) (n : Nat) :
    buildEntries t ki n = canonEntries t ki n := by
  induction n with
  | zero => rfl
  | succ n ih => rw [buildEntries_succ, canonEntries_succ, ih]

theorem headD_mem {α : Type} (l : List α) (d : α) (h : l ≠ []) : l.headD d ∈ l := by
  cases l with
  | nil => exact absurd rfl h
  | cons a l => exact List.mem_cons_self a l

theorem countP_eq_one_of_nodup_mem (l : List String) (x : String)
    (hnd : l.Nodup) (hx : x ∈ l) :
    l.countP (fun y => decide (x = y)) = 1 := by
  induction l with
  | nil => simp at hx
  | cons a l ih =>
    rw [List.nodup_cons] at hnd
    rcases List.mem_cons.mp hx with rfl | hx
    · rw [List.countP_cons_of_pos _ _ (by simp)]
      have : l.countP (fun y => decide (x = y)) = 0 := by
        rw [List.countP_eq_zero]
        intro y hy
        simp only [decide_eq_true_eq]
        intro hxy
        exact hnd.1 (hxy ▸ hy)
      omega
    · have hax : ¬ (x = a) := fun h => hnd.1 (h ▸ hx)
      rw [List.countP_cons_of_neg _ _ (by simpa using hax)]
      exact ih hnd.2 hx

/-- Membership in a canonical group. -/
theorem mem_canonEntry_rows (t : Table) (ki : List Nat) (n : Nat) (key : String) (r : Nat) :
    r ∈ (canonEntry t ki n key).rows ↔ r < n ∧ compositeKey t ki r = key := by
  unfold canonEntry
  simp [List.mem_filter, List.mem_range]

/-- Every row index 0..n-1 lies in exactly one canonical group's list. -/
theorem canon_countP (t : Table) (ki : List Nat) (n : Nat) (r : Nat) :
    (canonEntries t ki n).countP (fun e => decide (r ∈ e.rows))
      = if r < n then 1 else 0 := by
  unfold canonEntries
  rw [List.countP_map]
  by_cases hr : r < n
  · rw [if_pos hr]
    have hcongr : ∀ key ∈ firstOccs ((List.range n).map (compositeKey t ki)),
        (((fun e => decide (r ∈ e.rows)) ∘ canonEntry t ki n) key = true
          ↔ (fun y => decide (compositeKey t ki r = y)) key = true) := by
      intro key hkey
      simp only [Function.comp_apply, mem_canonEntry_rows, decide_eq_true_eq]
      constructor
      · exact fun h => h.2
      · exact fun h => ⟨hr, h⟩
    rw [List.countP_congr hcongr]
    refine countP_eq_one_of_nodup_mem _ _ (nodup_firstOccs _) ?_
    exact (mem_firstOccs _ _).mpr (List.mem_map.mpr ⟨r, List.mem_range.mpr hr, rfl⟩)
  · rw [if_neg hr]
    rw [List.countP_eq_zero]
    intro key _
    simp only [Function.comp_apply, mem_canonEntry_rows, decide_eq_true_eq]
    exact fun h => hr h.1

theorem canon_rows_ne_nil (t : Table) (ki : List Nat) (n : Nat) :
    ∀ e ∈ canonEntries t ki n, e.rows ≠ [] := by
  intro e he
  unfold canonEntries at he
  obtain ⟨key, hkey, rfl⟩ := List.mem_map.mp he
  obtain ⟨r, hr, hck⟩ := List.mem_map.mp ((mem_firstOccs _ _).mp hkey)
  exact List.ne_nil_of_mem ((mem_canonEntry_rows t ki n key r).mpr ⟨List.mem_range.mp hr, hck⟩)

theorem canon_rows_sorted (t : Table) (ki : List Nat) (n : Nat) :
    ∀ e ∈ canonEntries t ki n, e.rows.Pairwise (· < ·) := by
  intro e he
  unfold canonEntries at he
  obtain ⟨key, _, rfl⟩ := List.mem_map.mp he
  exact (List.pairwise_lt_range n).filter _

theorem canon_rows_key (t : Table) (ki : List Nat) (n : Nat) :
    ∀ e ∈ canonEntries t ki n, ∀ r ∈ e.rows, compositeKey t ki r = e.key := by
  intro e he r hr
  unfold canonEntries at he
  obtain ⟨key, _, rfl⟩ := List.mem_map.mp he
  exact ((mem_canonEntry_rows t ki n key r).mp hr).2

theorem canon_rows_bound (t : Table) (ki : List Nat) (n : Nat) :
    ∀ e ∈ canonEntries t ki n, ∀ r ∈ e.rows, r < n := by
  intro e he r hr
  unfold canonEntries at he
  obtain ⟨key, _, rfl⟩ := List.mem_map.mp he
  exact ((mem_canonEntry_rows t ki n key r).mp hr).1

/-- The key-value strings of a canonical group are the renderings of a
row of that group (its first row). -/
theorem canon_keyVals (t : Table) (ki : List Nat) (n : Nat) :
    ∀ e ∈ canonEntries t ki n, ∃ r0 ∈ e.rows, e.keyVals = rowKeyStrings t ki r0 := by
  intro e he
  have hne := canon_rows_ne_nil t ki n e he
  unfold canonEntries at he
  obtain ⟨key, _, rfl⟩ := List.mem_map.mp he
  exact ⟨(canonEntry t ki n key).rows.headD 0, headD_mem _ _ hne, rfl⟩

/-- A row with composite key `key` lies in the canonical group of that
key. -/
theorem canon_mem_of_lt (t : Table) (ki : List Nat) (n : Nat) (r : Nat) (hr : r < n) :
    ∃ e ∈ canonEntries t ki n, r ∈ e.rows ∧ e.key = compositeKey t ki r := by
  refine ⟨canonEntry t ki n (compositeKey t ki r), ?_, ?_, rfl⟩
  · exact List.mem_map.mpr ⟨compositeKey t ki r,
      (mem_firstOccs _ _).mpr (List.mem_map.mpr ⟨r, List.mem_range.mpr hr, rfl⟩), rfl⟩
  · exact (mem_canonEntry_rows t ki n _ r).mpr ⟨hr, rfl⟩

theorem insertRow_head_cases (key : String) (kv : List String) (r : Nat) :
    ∀ acc : List GEntry, ∀ e ∈ insertRow key kv r acc,
      (∃ e2 ∈ acc, e.rows.headD 0 = e2.rows.headD 0) ∨ e.rows.headD 0 = r := by
  intro acc
  induction acc with
  | nil =>
    intro e he
    simp only [insertRow, List.mem_singleton] at he
    subst he
    exact Or.inr rfl
  | cons a rest ih =>
    intro e he
    by_cases ha : a.key = key
    · simp only [insertRow, if_pos ha, List.mem_cons] at he
      rcases he with rfl | he
      · cases hrows : a.rows with
        | nil => exact Or.inr (by simp [hrows])
        | cons x l =>
          refine Or.inl ⟨a, List.mem_cons_self a rest, ?_⟩
          simp [hrows]
      · exact Or.inl ⟨e, List.mem_cons_of_mem a he, rfl⟩
    · simp only [insertRow, if_neg ha, List.mem_cons] at he
      rcases he with rfl | he
      · exact Or.inl ⟨e, List.mem_cons_self e rest, rfl⟩
      · rcases ih e he with ⟨e2, he2, hh⟩ | hh
        · exact Or.inl ⟨e2, List.mem_cons_of_mem a he2, hh⟩
        · exact Or.inr hh

theorem pairwise_head_insertRow (key : String) (kv : List String) (r : Nat)
    (acc : List GEntry)
    (hb : ∀ e ∈ acc, ∀ x ∈ e.rows, x < r)
    (hne : ∀ e ∈ acc, e.rows ≠ [])
    (hp : acc.Pairwise (fun e1 e2 => e1.rows.headD 0 < e2.rows.headD 0)) :
    (insertRow key kv r acc).Pairwise (fun e1 e2 => e1.rows.headD 0 < e2.rows.headD 0) := by
  induction acc with
  | nil => simp [insertRow]
  | cons a rest ih =>
    rw [List.pairwise_cons] at hp
    by_cases ha : a.key = key
    · simp only [insertRow, if_pos ha]
      rw [List.pairwise_cons]
      constructor
      · intro e2 he2
        have h1 := hp.1 e2 he2
        have hanil := hne a (List.mem_cons_self a rest)
        show (a.rows ++ [r]).headD 0 < e2.rows.headD 0
        rw [headD_append_of_ne_nil a.rows [r] 0 hanil]
        exact h1
      · exact hp.2
    · simp only [insertRow, if_neg ha]
      rw [List.pairwise_cons]
      constructor
      · intro e2 he2
        rcases insertRow_head_cases key kv r rest e2 he2 with ⟨e3, he3, hh⟩ | hh
        · exact hh ▸ hp.1 e3 he3
        · rw [hh]
          exact hb a (List.mem_cons_self a rest) _
            (headD_mem _ _ (hne a (List.mem_cons_self a rest)))
      · exact ih (fun e he => hb e (List.mem_cons_of_mem a he))
          (fun e he => hne e (List.mem_cons_of_mem a he)) hp.2

/-- Groups are numbered in first-occurrence order: the first row of an
earlier group is strictly smaller than the first row of a later one. -/
theorem canon_pairwise_head (t : Table) (ki : List Nat) (n : Nat) :
    (canonEntries t ki n).Pairwise (fun e1 e2 => e1.rows.headD 0 < e2.rows.headD 0) := by
  induction n with
  | zero => simp [canonEntries, firstOccs]
  | succ n ih =>
    rw [canonEntries_succ]
    exact pairwise_head_insertRow _ _ _ _
      (canon_rows_bound t ki n) (canon_rows_ne_nil t ki n) ih

/-- Inversion of a successful caml_arrow_table_group_by call. -/
theorem group_by_inv (t : Table) (keys : List String) (G : Grouping)
    (h : caml_arrow_table_group_by t keys = some G) :
    ∃ ki, keys.mapM (garrow_schema_get_field_index t.schema) = some ki ∧
      G = ⟨t, keys, (canonEntries t ki t.nrows).map (fun e => e.rows),
        (canonEntries t ki t.nrows).map (fun e => e.keyVals)⟩ := by
  unfold caml_arrow_table_group_by at h
  by_cases hkeys : keys.isEmpty
  · rw [if_pos hkeys] at h
    exact absurd h (by simp)
  · rw [if_neg hkeys] at h
    cases hki : keys.mapM (garrow_schema_get_field_index t.schema) with
    | none => rw [hki] at h; exact absurd h (by simp)
    | some ki =>
      rw [hki] at h
      simp only [Option.some.injEq] at h
      exact ⟨ki, rfl, by rw [← h, buildEntries_eq_canon]⟩

/-- Renderings and composite keys are functions of the key cells. -/
theorem cell_value_as_string_congr (t : Table) (k r1 r2 : Nat)
    (h : lookupCell t k r1 = lookupCell t k r2) :
    cell_value_as_string t k r1 = cell_value_as_string t k r2 := by
  unfold cell_value_as_string
  rw [h]

theorem compositeKey_congr (t : Table) (ki : List Nat) (r1 r2 : Nat)
    (h : ∀ k ∈ ki, lookupCell t k r1 = lookupCell t k r2) :
    compositeKey t ki r1 = compositeKey t ki r2 := by
  unfold compositeKey rowKeyStrings
  congr 1
  exact List.map_congr_left (fun k hk => cell_value_as_string_congr t k r1 r2 (h k hk))

/-- C1: for every Table and non-empty list of resolvable key column
names, the Grouping produced by group_by partitions the row indices:
every row index 0..num_rows-1 appears in exactly one group's row-index
list (and once in that list, the lists being strictly increasing), no
group's list is empty, groups are numbered in first-occurrence order of
their key tuple (the first row of an earlier group precedes the first row
of a later group), and two rows whose key-column cells are identical
across all key columns are placed in the same group. -/
theorem groupBy_partitions (t : Table) (keys : List String) (G : Grouping)
    (hG : caml_arrow_table_group_by t keys = some G) :
    (∀ r : Nat, G.groupRows.countP (fun rows => decide (r ∈ rows))
        = if r < t.nrows then 1 else 0)
    ∧ (∀ rows ∈ G.groupRows, rows ≠ [] ∧ rows.Pairwise (· < ·))
    ∧ G.groupRows.Pairwise (fun l1 l2 => l1.headD 0 < l2.headD 0)
    ∧ (∀ ki, keys.mapM (garrow_schema_get_field_index t.schema) = some ki →
        ∀ r1 r2, r1 < t.nrows → r2 < t.nrows →
          (∀ k ∈ ki, lookupCell t k r1 = lookupCell t k r2) →
          sameGroup G r1 r2) := by
  obtain ⟨ki, hki, rfl⟩ := group_by_inv t keys G hG
  refine ⟨?_, ?_, ?_, ?_⟩
  · intro r
    rw [List.countP_map]
    exact canon_countP t ki t.nrows r
  · intro rows hrows
    obtain ⟨e, he, rfl⟩ := List.mem_map.mp hrows
    exact ⟨canon_rows_ne_nil t ki t.nrows e he, canon_rows_sorted t ki t.nrows e he⟩
  · rw [List.pairwise_map]
    exact canon_pairwise_head t ki t.nrows
  · intro ki2 hki2 r1 r2 h1 h2 hcells
    rw [hki] at hki2
    obtain rfl : ki = ki2 := by injection hki2
    have hck : compositeKey t ki r1 = compositeKey t ki r2 :=
      compositeKey_congr t ki r1 r2 hcells
    refine ⟨(canonEntry t ki t.nrows (compositeKey t ki r1)).rows, ?_, ?_, ?_⟩
    · refine List.mem_map.mpr ⟨canonEntry t ki t.nrows (compositeKey t ki r1), ?_, rfl⟩
      exact List.mem_map.mpr ⟨compositeKey t ki r1,
        (mem_firstOccs _ _).mpr (List.mem_map.mpr ⟨r1, List.mem_range.mpr h1, rfl⟩), rfl⟩
    · exact (mem_canonEntry_rows t ki t.nrows _ r1).mpr ⟨h1, rfl⟩
    · exact (mem_canonEntry_rows t ki t.nrows _ r2).mpr ⟨h2, hck.symm⟩

/-- Witness for C1: the key-list is resolvable and non-empty on a
concrete table, and the partition facts hold there. -/
theorem groupBy_partitions_witness :
    caml_arrow_table_group_by exTableC1 ["cat"] = some exGroupC1 ∧
    ((∀ r : Nat, exGroupC1.groupRows.countP (fun rows => decide (r ∈ rows))
        = if r < exTableC1.nrows then 1 else 0)
    ∧ (∀ rows ∈ exGroupC1.groupRows, rows ≠ [] ∧ rows.Pairwise (· < ·))
    ∧ exGroupC1.groupRows.Pairwise (fun l1 l2 => l1.headD 0 < l2.headD 0)
    ∧ (∀ ki, (["cat"] : List String).mapM (garrow_schema_get_field_index exTableC1.schema)
          = some ki →
        ∀ r1 r2, r1 < exTableC1.nrows → r2 < exTableC1.nrows →
          (∀ k ∈ ki, lookupCell exTableC1 k r1 = lookupCell exTableC1 k r2) →
          sameGroup exGroupC1 r1 r2)) :=
  ⟨by decide, groupBy_partitions exTableC1 ["cat"] exGroupC1 (by decide)⟩

/-- C2 is false on the code: the null sentinel "NA" is a possible string
value, so a row whose key cell is null (row 1) is grouped together with a
row whose key cell is the non-null string "NA" (row 0). -/
theorem nullSentinel_collision_cex :
    caml_arrow_table_group_by exTableC2 ["k"]
      = some ⟨exTableC2, ["k"], [[0, 1]], [["NA"]]⟩
    ∧ lookupCell exTableC2 0 0 = some (AType.string, some (Val.s "NA"))
    ∧ lookupCell exTableC2 0 1 = some (AType.string, none)
    ∧ sameGroup ⟨exTableC2, ["k"], [[0, 1]], [["NA"]]⟩ 0 1 := by
  refine ⟨by decide, by decide, by decide, ?_⟩
  exact ⟨[0, 1], by decide, by decide, by decide⟩

theorem natDecDigitsAux_spec :
    ∀ fuel n, n < fuel →
      ∃ c cs, natDecDigitsAux fuel n = c :: cs
        ∧ c ∈ ['0', '1', '2', '3', '4', '5', '6', '7', '8', '9'] := by
  intro fuel
  induction fuel with
  | zero => intro n h; omega
  | succ fuel ih =>
    intro n h
    by_cases h10 : n < 10
    · refine ⟨digitChar n, [], by simp [natDecDigitsAux, h10], ?_⟩
      have hd : ∀ m, m < 10 →
          digitChar m ∈ ['0', '1', '2', '3', '4', '5', '6', '7', '8', '9'] := by decide
      exact hd n h10
    · have hrec : n / 10 < fuel := by
        have := Nat.div_lt_self (show 0 < n by omega) (show 1 < 10 by omega)
        omega
      obtain ⟨c, cs, hc, hcd⟩ := ih (n / 10) hrec
      exact ⟨c, cs ++ [digitChar (n % 10)], by simp [natDecDigitsAux, h10, hc], hcd⟩

/-- The decimal rendering of an integer starts with a sign or a digit, so
it is never the null sentinel "NA". -/
theorem intToDecimal_ne_NA (i : Int) : intToDecimal i ≠ "NA" := by
  unfold intToDecimal natToDec natDecDigits
  obtain ⟨c, cs, hc, hcd⟩ := natDecDigitsAux_spec (i.natAbs + 1) i.natAbs (by omega)
  rw [hc]
  by_cases hneg : i < 0
  · rw [if_pos hneg]
    intro h
    have h2 : String.mk ('-' :: c :: cs) = String.mk ['N', 'A'] := h
    have h3 : ('-' :: c :: cs) = ['N', 'A'] := by
      injection h2
    injection h3 with h4 _
    exact absurd h4 (by decide)
  · rw [if_neg hneg]
    intro h
    have h2 : String.mk (c :: cs) = String.mk ['N', 'A'] := h
    have h3 : (c :: cs) = ['N', 'A'] := by
      injection h2
    injection h3 with h4 _
    subst h4
    exact absurd hcd (by decide)

theorem intercalate_singleton (s x : String) : String.intercalate s [x] = x := rfl

/-- A single-key composite key is just that key's rendering. -/
theorem compositeKey_singleton (t : Table) (k r : Nat) :
    compositeKey t [k] r = cell_value_as_string t k r := rfl

/-- C2 (amended): a null key cell is rendered as the fixed sentinel
string "NA" and key renderings are joined with the separator byte 0x1F.
The sentinel coincides with the String value "NA" (see the
counterexample), so a null row can be grouped with a non-null row whose
rendering is "NA"; but the decimal rendering of an Int64 cell is never
"NA", so when grouping by a single Int64-typed key column a row whose key
cell is null is never grouped together with a row whose key cell is a
non-null value. -/
theorem nullKey_int64_separation (t : Table) (name : String) (G : Grouping)
    (idx r1 r2 : Nat) (ty : AType) (v : Val)
    (hG : caml_arrow_table_group_by t [name] = some G)
    (hidx : garrow_schema_get_field_index t.schema name = some idx)
    (h1 : lookupCell t idx r1 = some (ty, none))
    (h2 : lookupCell t idx r2 = some (AType.int64, some v)) :
    cell_value_as_string t idx r1 = "NA" ∧ ¬ sameGroup G r1 r2 := by
  have hr1 : cell_value_as_string t idx r1 = "NA" := by
    unfold cell_value_as_string
    rw [h1]
  have hr2 : cell_value_as_string t idx r2 = intToDecimal (valAsInt v) := by
    unfold cell_value_as_string
    rw [h2]
  refine ⟨hr1, ?_⟩
  obtain ⟨ki, hki, rfl⟩ := group_by_inv t [name] G hG
  have hkieq : ki = [idx] := by
    rw [List.mapM_cons, List.mapM_nil, hidx] at hki
    simp only [Option.pure_def, Option.bind_some, Option.bind_eq_bind, Option.some_bind,
      Option.some.injEq] at hki
    exact hki.symm
  subst hkieq
  rintro ⟨rows, hrows, hm1, hm2⟩
  obtain ⟨e, he, rfl⟩ := List.mem_map.mp hrows
  have hk1 := canon_rows_key t [idx] t.nrows e he r1 hm1
  have hk2 := canon_rows_key t [idx] t.nrows e he r2 hm2
  rw [compositeKey_singleton, hr1] at hk1
  rw [compositeKey_singleton, hr2] at hk2
  exact intToDecimal_ne_NA (valAsInt v) (hk2.trans hk1.symm)

theorem mapM_eq_map_of_forall {α β : Type} (f : α → Option β) (g : α → β) (l : List α)
    (h : ∀ x ∈ l, f x = some (g x)) : l.mapM f = some (l.map g) := by
  induction l with
  | nil => rfl
  | cons a l ih =>
    rw [List.mapM_cons, h a (List.mem_cons_self a l),
      ih (fun x hx => h x (List.mem_cons_of_mem a hx))]
    rfl

theorem mapM_eq_none_of_exists {α β : Type} (f : α → Option β) (l : List α)
    (h : ∃ x ∈ l, f x = none) : l.mapM f = none := by
  induction l with
  | nil => simp at h
  | cons a l ih =>
    obtain ⟨x, hx, hfx⟩ := h
    rw [List.mapM_cons]
    rcases List.mem_cons.mp hx with rfl | hx
    · rw [hfx]; rfl
    · cases hfa : f a with
      | none => rfl
      | some b =>
        rw [ih ⟨x, hx, hfx⟩]
        rfl

/-- Witness for the amended C2 on a concrete Int64-keyed table. -/
theorem nullKey_int64_separation_witness :
    caml_arrow_table_group_by exTableC2b ["k"]
      = some ⟨exTableC2b, ["k"], [[0], [1]], [["NA"], ["7"]]⟩
    ∧ garrow_schema_get_field_index exTableC2b.schema "k" = some 0
    ∧ lookupCell exTableC2b 0 0 = some (AType.int64, none)
    ∧ lookupCell exTableC2b 0 1 = some (AType.int64, some (Val.i 7))
    ∧ (cell_value_as_string exTableC2b 0 0 = "NA"
        ∧ ¬ sameGroup ⟨exTableC2b, ["k"], [[0], [1]], [["NA"], ["7"]]⟩ 0 1) :=
  ⟨by decide, by decide, by decide, by decide,
    nullKey_int64_separation exTableC2b "k" _ 0 0 1 AType.int64 (Val.i 7)
      (by decide) (by decide) (by decide) (by decide)⟩

/-- C3: for a resolvable Int64/Float64 column, a scalar operation returns
the input table with only the named column replaced: the schema field
keeps its name but becomes Float64, every null cell stays null, every
non-null value v (Int64 values widened to Float64) becomes op(v, scalar),
all other columns and the row count are untouched; and division of a
finite value by scalar 0 yields NaN for 0/0 and a signed infinity
otherwise — it is not a failure. -/
theorem scalarOp_correct (t : Table) (name : String) (scalar : F64) (op : ScalarOp)
    (idx : Nat) (col : Column)
    (hidx : garrow_schema_get_field_index t.schema name = some idx)
    (hcol : t.cols.get? idx = some col)
    (hne : col.chunks ≠ [])
    (hty : ∀ a ∈ col.chunks, a.ty = AType.int64 ∨ a.ty = AType.float64) :
    arrow_scalar_op_impl t name scalar op = some
      { schema := t.schema.set idx ((t.schema.getD idx ("", AType.nullT)).1, AType.float64),
        cols := t.cols.set idx
          ⟨col.chunks.map (fun a => AArray.mk AType.float64
            (a.cells.map (fun c => c.map (fun v =>
              Val.f (F64.applyOp op (numericCellAsF64 a.ty v) scalar)))))⟩,
        nrows := t.nrows }
    ∧ (∀ q : ℚ, F64.applyOp ScalarOp.div (F64.finite q) (F64.finite 0)
        = if q = 0 then F64.nan else F64.inf (decide (q < 0))) := by
  constructor
  · have hchunks : ∀ a ∈ col.chunks, applyChunkScalar a scalar op
        = some (a.cells.map (fun c => c.map (fun v =>
            F64.applyOp op (numericCellAsF64 a.ty v) scalar))) := by
      intro a ha
      unfold applyChunkScalar
      apply mapM_eq_map_of_forall
      intro c _
      cases c with
      | none => rfl
      | some v =>
        rcases hty a ha with h | h <;> rw [h] <;> rfl
    have happly : apply_double_scalar_op col.chunks scalar op
        = some (col.chunks.map (fun a =>
            a.cells.map (fun c => c.map (fun v =>
              F64.applyOp op (numericCellAsF64 a.ty v) scalar)))) := by
      unfold apply_double_scalar_op
      rw [mapM_eq_map_of_forall _ _ _ hchunks]
      cases hcc : col.chunks with
      | nil => exact absurd hcc hne
      | cons a rest => rfl
    unfold arrow_scalar_op_impl
    simp only [hidx, hcol, happly]
    unfold rebuild_table_with_column
    have hcells : (col.chunks.map (fun a =>
          a.cells.map (fun c => c.map (fun v =>
            F64.applyOp op (numericCellAsF64 a.ty v) scalar)))).map
          (fun c => AArray.mk AType.float64 (c.map (fun x => x.map Val.f)))
        = col.chunks.map (fun a => AArray.mk AType.float64
            (a.cells.map (fun c => c.map (fun v =>
              Val.f (F64.applyOp op (numericCellAsF64 a.ty v) scalar))))) := by
      rw [List.map_map]
      apply List.map_congr_left
      intro a _
      simp only [Function.comp_apply, List.map_map, AArray.mk.injEq, true_and]
      apply List.map_congr_left
      intro c _
      simp only [Function.comp_apply, Option.map_map]
      rfl
    rw [hcells]
  · intro q
    by_cases hq : q = 0 <;> simp [F64.applyOp, F64.div, hq]

/-- Witness for C3: adding 2 to the Int64 column of a concrete table. -/
theorem scalarOp_correct_witness :
    garrow_schema_get_field_index exTableC3.schema "x" = some 0
    ∧ exTableC3.cols.get? 0 = some exColC3
    ∧ exColC3.chunks ≠ []
    ∧ (∀ a ∈ exColC3.chunks, a.ty = AType.int64 ∨ a.ty = AType.float64)
    ∧ (arrow_scalar_op_impl exTableC3 "x" (F64.finite 2) ScalarOp.add = some
        { schema := exTableC3.schema.set 0
            ((exTableC3.schema.getD 0 ("", AType.nullT)).1, AType.float64),
          cols := exTableC3.cols.set 0
            ⟨exColC3.chunks.map (fun a => AArray.mk AType.float64
              (a.cells.map (fun c => c.map (fun v =>
                Val.f (F64.applyOp ScalarOp.add (numericCellAsF64 a.ty v) (F64.finite 2))))))⟩,
          nrows := exTableC3.nrows }
      ∧ (∀ q : ℚ, F64.applyOp ScalarOp.div (F64.finite q) (F64.finite 0)
          = if q = 0 then F64.nan else F64.inf (decide (q < 0)))) :=
  ⟨by decide, by decide, by decide, by decide,
    scalarOp_correct exTableC3 "x" (F64.finite 2) ScalarOp.add 0 exColC3
      (by decide) (by decide) (by decide) (by decide)⟩

/-- C7 is false on the code as stated: the null check precedes the type
check in apply_double_scalar_op, so an entirely-null Boolean column does
not fail — the scalar operation succeeds and returns a table whose
column became an all-null Float64 column. -/
theorem scalarOp_allNullBoolean_cex :
    exTableC7.schema = [("b", AType.boolean)]
    ∧ caml_arrow_compute_add_scalar exTableC7 "b" (F64.finite 2)
        = some ⟨[("b", AType.float64)], [⟨[⟨AType.float64, [none]⟩]⟩], 1⟩ := by
  constructor
  · rfl
  · decide

/-- C7 (amended): a scalar operation returns no result Table (none) when
the name does not resolve, and when the named column has a chunk of
non-numeric type (Boolean or String) containing at least one non-null
cell; an entirely-null non-numeric column instead succeeds (see the
counterexample).  The two failure causes produce the same undifferentiated
absence result. -/
theorem scalarOp_unsupported_fails (t : Table) (name : String) (scalar : F64) (op : ScalarOp)
    (h : garrow_schema_get_field_index t.schema name = none
       ∨ ∃ idx col a v, garrow_schema_get_field_index t.schema name = some idx
           ∧ t.cols.get? idx = some col ∧ a ∈ col.chunks
           ∧ ¬ (a.ty = AType.int64 ∨ a.ty = AType.float64)
           ∧ some v ∈ a.cells) :
    arrow_scalar_op_impl t name scalar op = none := by
  rcases h with h | ⟨idx, col, a, v, hidx, hcol, ha, hty, hv⟩
  · unfold arrow_scalar_op_impl
    rw [h]
  · have hcell : applyCellScalar a.ty (some v) scalar op = none := by
      unfold applyCellScalar
      cases haty : a.ty
      · exact absurd (Or.inl haty) hty
      · exact absurd (Or.inr haty) hty
      · rfl
      · rfl
      · rfl
    have hchunk : applyChunkScalar a scalar op = none := by
      unfold applyChunkScalar
      exact mapM_eq_none_of_exists _ _ ⟨some v, hv, hcell⟩
    have happly : apply_double_scalar_op col.chunks scalar op = none := by
      unfold apply_double_scalar_op
      rw [mapM_eq_none_of_exists _ _ ⟨a, ha, hchunk⟩]
    unfold arrow_scalar_op_impl
    simp only [hidx, hcol, happly]

/-- Witness for the amended C7: a Boolean column with a non-null cell
fails, on a concrete table. -/
theorem scalarOp_unsupported_fails_witness :
    (garrow_schema_get_field_index exTableC7b.schema "b" = none
       ∨ ∃ idx col a v, garrow_schema_get_field_index exTableC7b.schema "b" = some idx
           ∧ exTableC7b.cols.get? idx = some col ∧ a ∈ col.chunks
           ∧ ¬ (a.ty = AType.int64 ∨ a.ty = AType.float64)
           ∧ some v ∈ a.cells)
    ∧ arrow_scalar_op_impl exTableC7b "b" (F64.finite 2) ScalarOp.mul = none := by
  have h : garrow_schema_get_field_index exTableC7b.schema "b" = none
       ∨ ∃ idx col a v, garrow_schema_get_field_index exTableC7b.schema "b" = some idx
           ∧ exTableC7b.cols.get? idx = some col ∧ a ∈ col.chunks
           ∧ ¬ (a.ty = AType.int64 ∨ a.ty = AType.float64)
           ∧ some v ∈ a.cells :=
    Or.inr ⟨0, ⟨[⟨.boolean, [some (.b true)]⟩]⟩, ⟨.boolean, [some (.b true)]⟩, .b true,
      by decide, by decide, by decide, by decide, by decide⟩
  exact ⟨h, scalarOp_unsupported_fails exTableC7b "b" (F64.finite 2) ScalarOp.mul h⟩

/-- C6: project fails with the ColumnNotFound condition — the explicit
Failure value "Column not found", not a crash — whenever any requested
name does not resolve, and no partial Table is returned. -/
theorem project_columnNotFound (t : Table) (names : List String)
    (h : ∃ nm ∈ names, garrow_schema_get_field_index t.schema nm = none) :
    caml_arrow_table_project t names = Except.error "Column not found" := by
  unfold caml_arrow_table_project
  rw [mapM_eq_none_of_exists _ _ h]

/-- Witness for C6: projecting a present and an absent column name. -/
theorem project_columnNotFound_witness :
    (∃ nm ∈ (["cat", "missing"] : List String),
      garrow_schema_get_field_index exTableC1.schema nm = none)
    ∧ caml_arrow_table_project exTableC1 ["cat", "missing"]
        = Except.error "Column not found" :=
  ⟨⟨"missing", by decide, by decide⟩,
    project_columnNotFound exTableC1 ["cat", "missing"] ⟨"missing", by decide, by decide⟩⟩

theorem mapM_length {α β : Type} (f : α → Option β) (l : List α) (l2 : List β)
    (h : l.mapM f = some l2) : l2.length = l.length := by
  induction l generalizing l2 with
  | nil =>
    rw [List.mapM_nil] at h
    simp only [Option.pure_def, Option.some.injEq] at h
    rw [← h]
    rfl
  | cons a l ih =>
    rw [List.mapM_cons] at h
    cases hfa : f a with
    | none => rw [hfa] at h; simp at h
    | some b =>
      rw [hfa] at h
      cases hml : l.mapM f with
      | none => rw [hml] at h; simp at h
      | some bs =>
        rw [hml] at h
        simp only [Option.bind_some, Option.bind_eq_bind, Option.some_bind,
          Option.pure_def, Option.some.injEq] at h
        rw [← h]
        simp [ih bs hml]

theorem getD_map_of_lt {α β : Type} (l : List α) (f : α → β) (k : Nat) (d : α) (d2 : β)
    (hk : k < l.length) : (l.map f).getD k d2 = f (l.getD k d) := by
  rw [List.getD_eq_getElem?_getD, List.getD_eq_getElem?_getD, List.getElem?_map,
    List.getElem?_eq_getElem hk]
  rfl

theorem range_getD_map_f {α β : Type} (l : List α) (d : α) (f : α → β) (n : Nat)
    (hn : n = l.length) :
    (List.range n).map (fun g => f (l.getD g d)) = l.map f := by
  subst hn
  apply List.ext_getElem
  · simp
  · intro i h1 h2
    have hi : i < l.length := by simpa using h2
    simp only [List.getElem_map, List.getElem_range]
    rw [List.getD_eq_getElem?_getD, List.getElem?_eq_getElem hi]
    rfl

theorem sumFold_spec (f : Nat → Option F64) (rows : List Nat) (init : F64 × Bool) :
    rows.foldl (fun (acc : F64 × Bool) r =>
        match f r with
        | none => acc
        | some v => (F64.add acc.1 v, false)) init
      = ((rows.filterMap f).foldl F64.add init.1,
         init.2 && (rows.filterMap f).isEmpty) := by
  induction rows generalizing init with
  | nil => simp
  | cons r rows ih =>
    rw [List.foldl_cons, List.filterMap_cons]
    cases hfr : f r with
    | none => exact ih init
    | some v =>
      rw [ih (F64.add init.1 v, false)]
      simp

/-- Characterization of a successful build_aggregation_result call. -/
theorem build_aggregation_eq (gt : Grouping) (aggName : String) (aggs : List (F64 × Bool))
    (idxs : List Nat)
    (hkeys : gt.keyNames.mapM (garrow_schema_get_field_index gt.table.schema) = some idxs)
    (hlen : aggs.length = gt.groupRows.length)
    (hkv : gt.groupKeyVals.length = gt.groupRows.length) :
    build_aggregation_result gt aggName aggs = some
      ⟨(gt.keyNames.zip (idxs.map (fun i => (gt.table.schema.getD i ("", AType.nullT)).2)))
          ++ [(aggName, AType.float64)],
        ((List.range gt.keyNames.length).map (fun k =>
          Column.mk [keyColumnFor
            ((idxs.map (fun i =>
              (gt.table.schema.getD i ("", AType.nullT)).2)).getD k AType.nullT)
            (gt.groupKeyVals.map (fun kv => kv.getD k ""))]))
        ++ [Column.mk [AArray.mk AType.float64
            (aggs.map (fun p => if p.2 then none else some (Val.f p.1)))]],
        gt.groupRows.length⟩ := by
  unfold build_aggregation_result
  rw [hkeys]
  simp only [Option.some.injEq, Table.mk.injEq]
  refine ⟨trivial, ?_, trivial⟩
  congr 1
  · apply List.map_congr_left
    intro k _
    rw [range_getD_map_f gt.groupKeyVals [] (fun kv => kv.getD k "")
      gt.groupRows.length hkv.symm]
  · rw [range_getD_map_f aggs (F64.finite 0, true)
      (fun p => if p.2 then none else some (Val.f p.1)) gt.groupRows.length hlen.symm]

/-- C4: group sum reduces each group to the Float64 sum of the non-null
numeric values among its member rows, in row order; a group whose member
values are all null yields a null aggregate cell, not zero.  The
aggregate column is the last column of the result. -/
theorem groupSum_correct (gt : Grouping) (name : String) (colIdx : Nat)
    (idxs : List Nat) (t2 : Table)
    (hidx : garrow_schema_get_field_index gt.table.schema name = some colIdx)
    (hkeys : gt.keyNames.mapM (garrow_schema_get_field_index gt.table.schema) = some idxs)
    (hkv : gt.groupKeyVals.length = gt.groupRows.length)
    (hsum : caml_arrow_group_sum gt name = some t2) :
    t2.cols.get? gt.keyNames.length = some (Column.mk [AArray.mk AType.float64
      (gt.groupRows.map (fun rows =>
        if (rows.filterMap (get_numeric_value gt.table colIdx)).isEmpty then none
        else some (Val.f ((rows.filterMap (get_numeric_value gt.table colIdx)).foldl
          F64.add (F64.finite 0)))))])
    ∧ t2.cols.length = gt.keyNames.length + 1 := by
  unfold caml_arrow_group_sum at hsum
  simp only [hidx] at hsum
  rw [build_aggregation_eq gt name _ idxs hkeys (by simp) hkv] at hsum
  simp only [Option.some.injEq] at hsum
  subst hsum
  have hkc : ((List.range gt.keyNames.length).map (fun k =>
      Column.mk [keyColumnFor
        ((idxs.map (fun i =>
          (gt.table.schema.getD i ("", AType.nullT)).2)).getD k AType.nullT)
        (gt.groupKeyVals.map (fun kv => kv.getD k ""))])).length
      = gt.keyNames.length := by simp
  constructor
  · rw [List.get?_eq_getElem?]
    rw [List.getElem?_append_right (by omega)]
    rw [hkc]
    simp only [Nat.sub_self, List.getElem?_cons_zero, Option.some.injEq]
    congr 3
    rw [List.map_map]
    apply List.map_congr_left
    intro rows _
    simp only [Function.comp_apply]
    rw [sumFold_spec (get_numeric_value gt.table colIdx) rows (F64.finite 0, true)]
    simp
  · simp

/-- Witness for C4 on the concrete grouping of exTableC1 by "cat", with
target column "val" = [1, 2, null]: group {0,1} sums the two non-null
values, the all-null group {2} yields a null aggregate. -/
theorem groupSum_correct_witness :
    garrow_schema_get_field_index exGroupC1.table.schema "val" = some 1
    ∧ exGroupC1.keyNames.mapM (garrow_schema_get_field_index exGroupC1.table.schema)
        = some [0]
    ∧ exGroupC1.groupKeyVals.length = exGroupC1.groupRows.length
    ∧ caml_arrow_group_sum exGroupC1 "val" = some exSumC4
    ∧ exSumC4.cols.get? exGroupC1.keyNames.length
        = some (Column.mk [AArray.mk AType.float64
          (exGroupC1.groupRows.map (fun rows =>
            if (rows.filterMap (get_numeric_value exGroupC1.table 1)).isEmpty then none
            else some (Val.f ((rows.filterMap (get_numeric_value exGroupC1.table 1)).foldl
              F64.add (F64.finite 0)))))])
    ∧ exSumC4.cols.length = exGroupC1.keyNames.length + 1 := by
  have hsum : caml_arrow_group_sum exGroupC1 "val" = some exSumC4 := by
    unfold exSumC4
    cases h : caml_arrow_group_sum exGroupC1 "val" with
    | none => exact absurd h (by decide)
    | some t2 => rfl
  have h := groupSum_correct exGroupC1 "val" 1 [0] exSumC4
    (by decide) (by decide) (by decide) hsum
  exact ⟨by decide, by decide, by decide, hsum, h.1, h.2⟩

theorem keyColumnFor_shape (ty : AType) (vals : List String)
    (h : ty = AType.int64 ∨ ty = AType.float64 ∨ ty = AType.string) :
    (keyColumnFor ty vals).ty = ty
    ∧ (keyColumnFor ty vals).cells.length = vals.length
    ∧ ∀ c ∈ (keyColumnFor ty vals).cells, cellHasType ty c = true := by
  rcases h with rfl | rfl | rfl
  · refine ⟨rfl, by simp [keyColumnFor], ?_⟩
    intro c hc
    simp only [keyColumnFor, List.mem_map] at hc
    obtain ⟨s, _, rfl⟩ := hc
    rfl
  · refine ⟨rfl, by simp [keyColumnFor], ?_⟩
    intro c hc
    simp only [keyColumnFor, List.mem_map] at hc
    obtain ⟨s, _, rfl⟩ := hc
    rfl
  · refine ⟨rfl, by simp [keyColumnFor], ?_⟩
    intro c hc
    simp only [keyColumnFor, List.mem_map] at hc
    obtain ⟨s, _, rfl⟩ := hc
    rfl

theorem build_result_shape (gt : Grouping) (aggName : String) (aggs : List (F64 × Bool))
    (idxs : List Nat)
    (hkeys : gt.keyNames.mapM (garrow_schema_get_field_index gt.table.schema) = some idxs)
    (hlen : aggs.length = gt.groupRows.length)
    (hkv : gt.groupKeyVals.length = gt.groupRows.length)
    (hty : ∀ i ∈ idxs, (gt.table.schema.getD i ("", AType.nullT)).2 = AType.int64
        ∨ (gt.table.schema.getD i ("", AType.nullT)).2 = AType.float64
        ∨ (gt.table.schema.getD i ("", AType.nullT)).2 = AType.string) :
    ∃ t2, build_aggregation_result gt aggName aggs = some t2
      ∧ ResultShape gt aggName idxs t2 := by
  refine ⟨_, build_aggregation_eq gt aggName aggs idxs hkeys hlen hkv, ?_⟩
  have hlenidx : idxs.length = gt.keyNames.length := mapM_length _ _ _ hkeys
  unfold ResultShape
  refine ⟨rfl, rfl, by simp, ?_, ?_⟩
  · intro k hk
    have hki : k < idxs.length := by omega
    have htyk : (idxs.map (fun i =>
        (gt.table.schema.getD i ("", AType.nullT)).2)).getD k AType.nullT
        = (gt.table.schema.getD (idxs.getD k 0) ("", AType.nullT)).2 :=
      getD_map_of_lt idxs _ k 0 AType.nullT hki
    have hmem : idxs.getD k 0 ∈ idxs := by
      rw [List.getD_eq_getElem?_getD, List.getElem?_eq_getElem hki]
      exact List.getElem_mem hki
    have hshape := keyColumnFor_shape
      ((idxs.map (fun i => (gt.table.schema.getD i ("", AType.nullT)).2)).getD k AType.nullT)
      (gt.groupKeyVals.map (fun kv => kv.getD k ""))
      (by rw [htyk]; exact hty _ hmem)
    refine ⟨keyColumnFor
        ((idxs.map (fun i => (gt.table.schema.getD i ("", AType.nullT)).2)).getD k AType.nullT)
        (gt.groupKeyVals.map (fun kv => kv.getD k "")), ?_, hshape.1, ?_, hshape.2.2⟩
    · rw [List.get?_eq_getElem?, List.getElem?_append_left (by simpa using hk),
        List.getElem?_map, List.getElem?_range hk]
      rfl
    · rw [hshape.2.1]
      simp [hkv]
  · refine ⟨AArray.mk AType.float64 (aggs.map (fun p =>
        if p.2 then none else some (Val.f p.1))), ?_, rfl, by simp [hlen], ?_⟩
    · rw [List.get?_eq_getElem?, List.getElem?_append_right (by simp)]
      simp
    · intro c hc
      simp only [List.mem_map] at hc
      obtain ⟨p, _, rfl⟩ := hc
      by_cases hp : p.2 <;> simp [hp, cellHasType]

/-- C5 is false on the code as stated: a Boolean key column is not
re-typed to its original schema type.  Grouping a Boolean column and
counting yields a result whose first field is declared Boolean but whose
key column stores the String value "true". -/
theorem aggregation_boolKey_cex :
    (caml_arrow_group_count exGroupC5).map (fun t2 => (t2.schema, t2.cols.get? 0))
      = some ([("b", AType.boolean), ("n", AType.float64)],
          some (Column.mk [AArray.mk AType.string [some (Val.s "true")]]))
    ∧ cellHasType AType.boolean (some (Val.s "true")) = false := by
  constructor
  · decide
  · rfl

/-- C5 (amended): for every Grouping whose key columns have schema type
Int64, Float64 or String, each aggregation (sum, mean, count) returns a
Table whose columns are, in order, the key columns re-typed to their
original schema types with one row per group in group order, followed by
exactly one Float64 aggregate column named "n" for count or named after
the target column for sum and mean.  (A Boolean- or Null-typed key column
is instead materialized as String data under its original declared field
type — see the counterexample.) -/
theorem aggregation_reconstruction (gt : Grouping) (name : String) (colIdx : Nat)
    (idxs : List Nat)
    (hkeys : gt.keyNames.mapM (garrow_schema_get_field_index gt.table.schema) = some idxs)
    (hkv : gt.groupKeyVals.length = gt.groupRows.length)
    (hidx : garrow_schema_get_field_index gt.table.schema name = some colIdx)
    (hty : ∀ i ∈ idxs, (gt.table.schema.getD i ("", AType.nullT)).2 = AType.int64
        ∨ (gt.table.schema.getD i ("", AType.nullT)).2 = AType.float64
        ∨ (gt.table.schema.getD i ("", AType.nullT)).2 = AType.string) :
    (∃ t2, caml_arrow_group_sum gt name = some t2 ∧ ResultShape gt name idxs t2)
    ∧ (∃ t2, caml_arrow_group_mean gt name = some t2 ∧ ResultShape gt name idxs t2)
    ∧ (∃ t2, caml_arrow_group_count gt = some t2 ∧ ResultShape gt "n" idxs t2) := by
  refine ⟨?_, ?_, ?_⟩
  · obtain ⟨t2, hb, hs⟩ := build_result_shape gt name
      (gt.groupRows.map (fun rows =>
        rows.foldl (fun (acc : F64 × Bool) r =>
          match get_numeric_value gt.table colIdx r with
          | none => acc
          | some v => (F64.add acc.1 v, false)) (F64.finite 0, true)))
      idxs hkeys (by simp) hkv hty
    refine ⟨t2, ?_, hs⟩
    unfold caml_arrow_group_sum
    simp only [hidx]
    exact hb
  · obtain ⟨t2, hb, hs⟩ := build_result_shape gt name
      (gt.groupRows.map (meanAgg gt.table colIdx))
      idxs hkeys (by simp) hkv hty
    refine ⟨t2, ?_, hs⟩
    unfold caml_arrow_group_mean
    simp only [hidx]
    exact hb
  · obtain ⟨t2, hb, hs⟩ := build_result_shape gt "n"
      (gt.groupRows.map (fun rows => (F64.finite (rows.length : ℚ), false)))
      idxs hkeys (by simp) hkv hty
    exact ⟨t2, hb, hs⟩

/-- Witness for the amended C5 on the concrete String-keyed grouping. -/
theorem aggregation_reconstruction_witness :
    exGroupC1.keyNames.mapM (garrow_schema_get_field_index exGroupC1.table.schema)
      = some [0]
    ∧ exGroupC1.groupKeyVals.length = exGroupC1.groupRows.length
    ∧ garrow_schema_get_field_index exGroupC1.table.schema "val" = some 1
    ∧ (∀ i ∈ ([0] : List Nat),
        (exGroupC1.table.schema.getD i ("", AType.nullT)).2 = AType.int64
        ∨ (exGroupC1.table.schema.getD i ("", AType.nullT)).2 = AType.float64
        ∨ (exGroupC1.table.schema.getD i ("", AType.nullT)).2 = AType.string)
    ∧ ((∃ t2, caml_arrow_group_sum exGroupC1 "val" = some t2
          ∧ ResultShape exGroupC1 "val" [0] t2)
      ∧ (∃ t2, caml_arrow_group_mean exGroupC1 "val" = some t2
          ∧ ResultShape exGroupC1 "val" [0] t2)
      ∧ (∃ t2, caml_arrow_group_count exGroupC1 = some t2
          ∧ ResultShape exGroupC1 "n" [0] t2)) :=
  ⟨by decide, by decide, by decide, by decide,
    aggregation_reconstruction exGroupC1 "val" 1 [0]
      (by decide) (by decide) (by decide) (by decide)⟩

/-- C10: for a grouping by a single Int64 key column, a group whose key
cell is null has its key reconstructed in the aggregation result (here
group count) as the non-null integer 0: the "NA" sentinel is parsed back
by g_ascii_strtoll, which converts no digits and returns 0. -/
theorem nullInt64Key_zero (t : Table) (name : String) (G : Grouping) (t2 : Table)
    (idx g r : Nat) (rows : List Nat) (ty : AType)
    (hG : caml_arrow_table_group_by t [name] = some G)
    (hidx : garrow_schema_get_field_index t.schema name = some idx)
    (htype : (t.schema.getD idx ("", AType.nullT)).2 = AType.int64)
    (hg : G.groupRows.get? g = some rows)
    (hr : r ∈ rows)
    (hnull : lookupCell t idx r = some (ty, none))
    (hcount : caml_arrow_group_count G = some t2) :
    ∃ a, t2.cols.get? 0 = some (Column.mk [a])
      ∧ a.cells.get? g = some (some (Val.i 0)) := by
  obtain ⟨ki, hki, hGeq⟩ := group_by_inv t [name] G hG
  have hkieq : ki = [idx] := by
    rw [List.mapM_cons, List.mapM_nil, hidx] at hki
    simp only [Option.pure_def, Option.bind_some, Option.bind_eq_bind, Option.some_bind,
      Option.some.injEq] at hki
    exact hki.symm
  subst hkieq
  subst hGeq
  simp only [List.get?_eq_getElem?, List.getElem?_map] at hg
  cases hge : (canonEntries t [idx] t.nrows)[g]? with
  | none => rw [hge] at hg; simp at hg
  | some e =>
    rw [hge] at hg
    obtain rfl : rows = e.rows := by simpa using hg.symm
    have hmem : e ∈ canonEntries t [idx] t.nrows := List.getElem?_mem hge
    have hNAx : cell_value_as_string t idx r = "NA" := by
      unfold cell_value_as_string
      rw [hnull]
    have hckr : compositeKey t [idx] r = e.key :=
      canon_rows_key t [idx] t.nrows e hmem r hr
    obtain ⟨r0, hr0, hkv0⟩ := canon_keyVals t [idx] t.nrows e hmem
    have hckr0 : compositeKey t [idx] r0 = e.key :=
      canon_rows_key t [idx] t.nrows e hmem r0 hr0
    have hkvNA : e.keyVals = ["NA"] := by
      rw [hkv0]
      unfold rowKeyStrings
      rw [List.map_singleton]
      have : cell_value_as_string t idx r0 = "NA" := by
        have h1 : cell_value_as_string t idx r0 = compositeKey t [idx] r0 :=
          (compositeKey_singleton t idx r0).symm
        rw [h1, hckr0, ← hckr, compositeKey_singleton, hNAx]
      rw [this]
    -- evaluate the count aggregation through build_aggregation_eq
    have hkeys2 : ([name] : List String).mapM
        (garrow_schema_get_field_index t.schema) = some [idx] := by
      rw [List.mapM_cons, List.mapM_nil, hidx]
      rfl
    unfold caml_arrow_group_count at hcount
    rw [build_aggregation_eq _ "n" _ [idx] hkeys2 (by simp) (by simp)] at hcount
    simp only [Option.some.injEq] at hcount
    subst hcount
    refine ⟨keyColumnFor AType.int64
      (((canonEntries t [idx] t.nrows).map (fun e => e.keyVals)).map
        (fun kv => kv.getD 0 "")), ?_, ?_⟩
    · have hrange1 : (List.range (1 : Nat)) = [0] := rfl
      simp only [List.get?_eq_getElem?]
      rw [List.getElem?_append_left (by simp)]
      simp only [List.getElem?_map]
      rw [show (List.length ([name] : List String)) = 1 from rfl, hrange1]
      simp only [List.getElem?_cons_zero, Option.map_some', Option.some.injEq]
      congr 2
      have : (([idx].map (fun i => (t.schema.getD i ("", AType.nullT)).2)).getD 0 AType.nullT)
          = (t.schema.getD idx ("", AType.nullT)).2 := rfl
      rw [this, htype]
    · unfold keyColumnFor
      simp only [List.get?_eq_getElem?, List.getElem?_map, hge, Option.map_some',
        Option.some.injEq, hkvNA]
      rfl

/-- Witness for C10 on the concrete Int64-keyed grouping with a null
key row: the reconstructed key cell of group 0 is the integer 0. -/
theorem nullInt64Key_zero_witness :
    caml_arrow_table_group_by exTableC2b ["k"] = some exGroupC10
    ∧ garrow_schema_get_field_index exTableC2b.schema "k" = some 0
    ∧ (exTableC2b.schema.getD 0 ("", AType.nullT)).2 = AType.int64
    ∧ exGroupC10.groupRows.get? 0 = some [0]
    ∧ (0 : Nat) ∈ ([0] : List Nat)
    ∧ lookupCell exTableC2b 0 0 = some (AType.int64, none)
    ∧ caml_arrow_group_count exGroupC10 = some exCountC10
    ∧ ∃ a, exCountC10.cols.get? 0 = some (Column.mk [a])
        ∧ a.cells.get? 0 = some (some (Val.i 0)) := by
  have hcount : caml_arrow_group_count exGroupC10 = some exCountC10 := by
    unfold exCountC10
    cases h : caml_arrow_group_count exGroupC10 with
    | none => exact absurd h (by decide)
    | some t2 => rfl
  exact ⟨by decide, by decide, by decide, by decide, by decide, by decide, hcount,
    nullInt64Key_zero exTableC2b "k" exGroupC10 exCountC10 0 0 0 [0] AType.int64
      (by decide) (by decide) (by decide) (by decide) (by decide) (by decide) hcount⟩

/-- C9 is false on the code: the column "x" is chunked across two
physical segments, yet the export path returns a view (over the first
chunk only, here of length 1 out of 2 rows) instead of an explicit
absence result; the buffer-pointer export likewise returns a view. -/
theorem bufferExport_multichunk_cex :
    (exTableC9.cols.getD 0 ⟨[]⟩).chunks.length = 2
    ∧ caml_arrow_table_get_column_data_by_name exTableC9 "x"
        = some ⟨AType.float64, [some (.f (.finite 3))]⟩
    ∧ (caml_arrow_table_get_column_data_by_name exTableC9 "x").bind
        caml_arrow_float64_array_to_bigarray = some [F64.finite 3]
    ∧ caml_arrow_array_get_buffer_ptr ⟨AType.float64, [some (.f (.finite 3))]⟩
        = some 8 := by
  refine ⟨by decide, by decide, by decide, by decide⟩

/-- C9 (amended): the zero-copy export returns an explicit absence result
only when the column name does not resolve, the column or its first chunk
is missing, or the array is a NullArray with no value data buffer.
Otherwise it returns a view over the column's first chunk only — with no
check that the column is single-chunk and no element-type check: a
non-Float64 array is reinterpreted as size/8 doubles. -/
theorem bufferExport_firstChunk (t : Table) (name : String) (idx : Nat)
    (col : Column) (a : AArray)
    (hidx : garrow_schema_get_field_index t.schema name = some idx)
    (hcol : t.cols.get? idx = some col)
    (ha : col.chunks.get? 0 = some a) :
    caml_arrow_table_get_column_data_by_name t name = some a
    ∧ (a.ty ≠ AType.nullT →
        caml_arrow_float64_array_to_bigarray a
          = some (if a.ty = AType.float64
              then a.cells.map (fun c =>
                match c with
                | some v => valAsF64 v
                | none => F64.finite 0)
              else List.replicate (bufferByteSize a / 8) (F64.finite 0))
        ∧ caml_arrow_array_get_buffer_ptr a = some (bufferByteSize a))
    ∧ (a.ty = AType.nullT →
        caml_arrow_float64_array_to_bigarray a = none
        ∧ caml_arrow_array_get_buffer_ptr a = none) := by
  refine ⟨?_, ?_, ?_⟩
  · unfold caml_arrow_table_get_column_data_by_name
    simp only [hidx, hcol]
    exact ha
  · intro hty
    unfold caml_arrow_float64_array_to_bigarray caml_arrow_array_get_buffer_ptr
    cases h : a.ty <;> simp_all
  · intro hty
    unfold caml_arrow_float64_array_to_bigarray caml_arrow_array_get_buffer_ptr
    rw [hty]
    exact ⟨rfl, rfl⟩

/-- Witness for the amended C9 on the concrete two-chunk Float64 column. -/
theorem bufferExport_firstChunk_witness :
    garrow_schema_get_field_index exTableC9.schema "x" = some 0
    ∧ exTableC9.cols.get? 0
        = some ⟨[⟨.float64, [some (.f (.finite 3))]⟩, ⟨.float64, [some (.f (.finite 4))]⟩]⟩
    ∧ (⟨[⟨.float64, [some (.f (.finite 3))]⟩,
        ⟨.float64, [some (.f (.finite 4))]⟩]⟩ : Column).chunks.get? 0
        = some ⟨AType.float64, [some (.f (.finite 3))]⟩
    ∧ (caml_arrow_table_get_column_data_by_name exTableC9 "x"
        = some ⟨AType.float64, [some (.f (.finite 3))]⟩
      ∧ ((⟨AType.float64, [some (.f (.finite 3))]⟩ : AArray).ty ≠ AType.nullT →
          caml_arrow_float64_array_to_bigarray ⟨AType.float64, [some (.f (.finite 3))]⟩
            = some (if (⟨AType.float64, [some (.f (.finite 3))]⟩ : AArray).ty = AType.float64
                then (⟨AType.float64, [some (.f (.finite 3))]⟩ : AArray).cells.map (fun c =>
                  match c with
                  | some v => valAsF64 v
                  | none => F64.finite 0)
                else List.replicate
                  (bufferByteSize ⟨AType.float64, [some (.f (.finite 3))]⟩ / 8) (F64.finite 0))
          ∧ caml_arrow_array_get_buffer_ptr ⟨AType.float64, [some (.f (.finite 3))]⟩
              = some (bufferByteSize ⟨AType.float64, [some (.f (.finite 3))]⟩))
      ∧ ((⟨AType.float64, [some (.f (.finite 3))]⟩ : AArray).ty = AType.nullT →
          caml_arrow_float64_array_to_bigarray ⟨AType.float64, [some (.f (.finite 3))]⟩ = none
          ∧ caml_arrow_array_get_buffer_ptr ⟨AType.float64, [some (.f (.finite 3))]⟩ = none)) :=
  ⟨by decide, by decide, by decide,
    bufferExport_firstChunk exTableC9 "x" 0
      ⟨[⟨.float64, [some (.f (.finite 3))]⟩, ⟨.float64, [some (.f (.finite 4))]⟩]⟩
      ⟨AType.float64, [some (.f (.finite 3))]⟩
      (by decide) (by decide) (by decide)⟩

theorem cellLeDir_total (asc : Bool) (a b : Option Val) :
    cellLeDir asc a b = true ∨ cellLeDir asc b a = true := by
  cases a with
  | none => cases b <;> simp [cellLeDir]
  | some v =>
    cases b with
    | none => simp [cellLeDir]
    | some w =>
      simp only [cellLeDir]
      cases asc
      · rcases le_total (vrank w) (vrank v) with h | h <;> simp [h]
      · rcases le_total (vrank v) (vrank w) with h | h <;> simp [h]

theorem cellLeDir_trans (asc : Bool) (a b c : Option Val)
    (h1 : cellLeDir asc a b = true) (h2 : cellLeDir asc b c = true) :
    cellLeDir asc a c = true := by
  cases a with
  | none =>
    cases b with
    | none => exact h2
    | some w => simp [cellLeDir] at h1
  | some v =>
    cases c with
    | none => simp [cellLeDir]
    | some x =>
      cases b with
      | none => simp [cellLeDir] at h2
      | some w =>
        simp only [cellLeDir] at h1 h2 ⊢
        cases asc
        · simp at h1 h2 ⊢
          exact le_trans h2 h1
        · simp at h1 h2 ⊢
          exact le_trans h1 h2

theorem stableLe_total (t : Table) (colIdx : Nat) (asc : Bool) (i j : Nat) :
    stableLe t colIdx asc i j ∨ stableLe t colIdx asc j i := by
  rcases cellLeDir_total asc (keyCell t colIdx i) (keyCell t colIdx j) with h | h
  · by_cases h2 : cellLeDir asc (keyCell t colIdx j) (keyCell t colIdx i) = true
    · rcases Nat.le_total i j with hij | hij
      · exact Or.inl ⟨h, fun _ => hij⟩
      · exact Or.inr ⟨h2, fun _ => hij⟩
    · exact Or.inl ⟨h, fun hc => absurd hc h2⟩
  · by_cases h2 : cellLeDir asc (keyCell t colIdx i) (keyCell t colIdx j) = true
    · rcases Nat.le_total i j with hij | hij
      · exact Or.inl ⟨h2, fun _ => hij⟩
      · exact Or.inr ⟨h, fun _ => hij⟩
    · exact Or.inr ⟨h, fun hc => absurd hc h2⟩

theorem stableLe_trans (t : Table) (colIdx : Nat) (asc : Bool) (i j k : Nat)
    (h1 : stableLe t colIdx asc i j) (h2 : stableLe t colIdx asc j k) :
    stableLe t colIdx asc i k := by
  refine ⟨cellLeDir_trans asc _ _ _ h1.1 h2.1, ?_⟩
  intro hki
  have hji : cellLeDir asc (keyCell t colIdx j) (keyCell t colIdx i) = true :=
    cellLeDir_trans asc _ _ _ h2.1 hki
  have hkj : cellLeDir asc (keyCell t colIdx k) (keyCell t colIdx j) = true :=
    cellLeDir_trans asc _ _ _ hki h1.1
  exact le_trans (h1.2 hji) (h2.2 hkj)

/-- C8: sorting by a resolvable column returns the table obtained by
computing one permutation of the row indices 0..num_rows-1 and taking
every column by that same permutation (so all columns stay row-aligned);
the permutation is monotone in the requested direction with respect to
the sort column's cells (nulls placed last) and stable: rows with equal
keys keep their original relative order. -/
theorem sort_correct (t : Table) (name : String) (ascending : Bool) (colIdx : Nat)
    (hidx : garrow_schema_get_field_index t.schema name = some colIdx) :
    ∃ perm, caml_arrow_table_sort t name ascending = some (garrow_table_take t perm)
      ∧ perm.Perm (List.range t.nrows)
      ∧ perm.Pairwise (fun i j =>
          cellLeDir ascending (keyCell t colIdx i) (keyCell t colIdx j) = true)
      ∧ perm.Pairwise (fun i j =>
          cellLeDir ascending (keyCell t colIdx j) (keyCell t colIdx i) = true → i ≤ j) := by
  haveI htot : IsTotal Nat (stableLe t colIdx ascending) := ⟨stableLe_total t colIdx ascending⟩
  haveI htrans : IsTrans Nat (stableLe t colIdx ascending) :=
    ⟨stableLe_trans t colIdx ascending⟩
  have hsorted : (garrow_table_sort_indices t colIdx ascending).Pairwise
      (stableLe t colIdx ascending) :=
    List.sorted_insertionSort (stableLe t colIdx ascending) (List.range t.nrows)
  refine ⟨garrow_table_sort_indices t colIdx ascending, ?_, ?_, ?_, ?_⟩
  · unfold caml_arrow_table_sort
    simp only [hidx]
  · exact List.perm_insertionSort (stableLe t colIdx ascending) (List.range t.nrows)
  · exact hsorted.imp (fun h => h.1)
  · exact hsorted.imp (fun h => h.2)

/-- Witness for C8: sorting a concrete table (with a tie in the key
column) ascending by "k". -/
theorem sort_correct_witness :
    garrow_schema_get_field_index exTableC8.schema "k" = some 0
    ∧ ∃ perm, caml_arrow_table_sort exTableC8 "k" true = some (garrow_table_take exTableC8 perm)
      ∧ perm.Perm (List.range exTableC8.nrows)
      ∧ perm.Pairwise (fun i j =>
          cellLeDir true (keyCell exTableC8 0 i) (keyCell exTableC8 0 j) = true)
      ∧ perm.Pairwise (fun i j =>
          cellLeDir true (keyCell exTableC8 0 j) (keyCell exTableC8 0 i) = true → i ≤ j) :=
  ⟨by decide, sort_correct exTableC8 "k" true 0 (by decide)⟩

end ArrowStubs
